import Mathlib

/-! Shallow embedding of the AIEM simulation engine (files src/src/agents.py
and src/src/model.py of the repository).  Python floats are modelled as exact
rationals.  Every stochastic draw is made explicit: `r : ℕ → ℚ` is the stream
of `self.random.random()` draws consumed during one engine step, and `order`
is the activation order produced by `random.shuffle` — which the Python code
takes from the process-global `random` module, not from the model's seeded
generator.  Role-specific Python attributes are `Option`-valued, `some`
exactly when the corresponding agent class defines the attribute, so a
`hasattr` test in the source becomes an `Option` match here.  The
`specialty_vector` attribute is carried by no behavioral rule and is omitted.
-/

namespace AIEM

/-- The six concrete subclasses of `AbstractAgent` (the `role` strings of the
source are in bijection with the classes). -/
inductive Role
  | Leader
  | Operative
  | Broker
  | Facilitator
  | CommunityMember
  | Authority
  deriving DecidableEq

/-- One agent record (shared attributes of `AbstractAgent` plus the
role-specific extras). -/
structure AgentState where
  role : Role
  resources : ℚ
  legitimacy : ℚ
  risk_tolerance : ℚ
  social_capital : ℚ
  detection_exposure : ℚ
  economic_stress : Option ℚ := none
  monitoring_capacity : Option ℚ := none
  intervention_resources : Option ℚ := none
  vulnerability : Option ℚ := none
  reporting_propensity : Option ℚ := none
  active : Bool := true
  arrest_count : ℕ := 0
  deriving DecidableEq

/-- One row of the DataCollector table (the ten model reporters of
`AIEMModel.__init__`). -/
structure MetricsRow where
  activeLeaders : ℕ
  activeOperatives : ℕ
  activeBrokers : ℕ
  activeFacilitators : ℕ
  totalResources : ℚ
  averageDetectionExposure : ℚ
  arrestsThisStep : ℕ
  reportsThisStep : ℕ
  networkDensity : ℚ
  averageClustering : ℚ
  deriving DecidableEq

/-- Engine state: the population registry (list index = `unique_id`), the
live node list of the small-world graph together with its fixed edge
relation, the per-step counters, and the recorded metrics table.
`intervene_calls` is ghost instrumentation counting the invocations of
`intervene_agent` during the current step; the Python code has no such
field and nothing else reads it. -/
structure ModelState where
  agents : List AgentState
  nodes : List ℕ
  adj : ℕ → ℕ → Bool
  arrests_this_step : ℕ
  reports_this_step : ℕ
  recent_arrest_rate : ℚ
  running : Bool
  metrics : List MetricsRow
  intervene_calls : ℕ

/-- `AIEMModel.get_agent_by_id`: the linear scan over the registry, which
holds ids `0, 1, …` in creation order, is index lookup. -/
def get_agent_by_id (s : ModelState) (i : ℕ) : Option AgentState :=
  s.agents.get? i

/-- Write back the (mutated-in-place in Python) agent object `a` at id `i`. -/
def setAgent (s : ModelState) (i : ℕ) (a : AgentState) : ModelState :=
  { s with agents := s.agents.set i a }

/-- `list(self.model.network.neighbors(i))`; `none` models the `networkx`
error raised when `i` is not a node of the graph.  An edge is live exactly
when both endpoints are still in the node list. -/
def neighborsOpt (s : ModelState) (i : ℕ) : Option (List ℕ) :=
  if i ∈ s.nodes then some (s.nodes.filter (fun j => s.adj i j)) else none

/-- `AbstractAgent.update_social_capital`. -/
def update_social_capital (s : ModelState) (i : ℕ) : Option ModelState :=
  match neighborsOpt s i, get_agent_by_id s i with
  | some nbrs, some a =>
    if nbrs.length > 0 then
      let legs := nbrs.filterMap fun n => (get_agent_by_id s n).map (·.legitimacy)
      if legs.length > 0 then
        some (setAgent s i
          { a with social_capital :=
              (7/10) * a.social_capital + (3/10) * (legs.sum / legs.length) })
      else some s
    else some s
  | _, _ => none

/-- `AbstractAgent.adjust_risk_from_environment`. -/
def adjust_risk_from_environment (s : ModelState) (i : ℕ) : Option ModelState :=
  match get_agent_by_id s i with
  | some a =>
    if s.recent_arrest_rate > 1/10 then
      some (setAgent s i { a with risk_tolerance := a.risk_tolerance * (95/100) })
    else some s
  | none => none

/-- `AbstractAgent.step`: the shared pre-step behavior, a no-op for an
inactive agent. -/
def abstract_step (s : ModelState) (i : ℕ) : Option ModelState :=
  match get_agent_by_id s i with
  | some a =>
    if a.active then
      match update_social_capital s i with
      | some s1 => adjust_risk_from_environment s1 i
      | none => none
    else some s
  | none => none

/-- Body of the distribution loop in `Leader.distribute_resources`; `t` is
the fixed `distribution_amount / len(neighbors)` share and `i` the Leader. -/
def distStep (i : ℕ) (t : ℚ) (st : ModelState) (nb : ℕ) : ModelState :=
  match get_agent_by_id st nb with
  | some ag =>
    if ag.role = Role.Operative ∨ ag.role = Role.Broker then
      let st1 := setAgent st nb { ag with resources := ag.resources + t }
      match get_agent_by_id st1 i with
      | some selfAg => setAgent st1 i { selfAg with resources := selfAg.resources - t }
      | none => st1
    else st
  | none => st

/-- `Leader.distribute_resources`.  Note that the source divides the fixed
10% pot by the number of ALL neighbors, while only Operative/Broker
neighbors receive a share. -/
def distribute_resources (s : ModelState) (i : ℕ) : Option ModelState :=
  match neighborsOpt s i, get_agent_by_id s i with
  | some nbrs, some a =>
    if nbrs.length > 0 ∧ a.resources > 3/10 then
      some (nbrs.foldl (distStep i ((a.resources * (1/10)) / (nbrs.length : ℚ))) s)
    else some s
  | _, _ => none

/-- `Leader.step`. -/
def leader_step (s : ModelState) (i : ℕ) : Option ModelState :=
  match abstract_step s i with
  | some s1 =>
    match get_agent_by_id s1 i with
    | some a => if a.active then distribute_resources s1 i else some s1
    | none => none
  | none => none

/-- `Operative.perform_abstract_activity`; consumes one random draw when the
activity condition holds. -/
def perform_abstract_activity (r : ℕ → ℚ) (s : ModelState) (k : ℕ) (i : ℕ) :
    Option (ModelState × ℕ) :=
  match get_agent_by_id s i with
  | some a =>
    if a.risk_tolerance > 1/2 ∧ a.resources < 3/10 then
      if r k < a.social_capital * (1 - a.detection_exposure) then
        some (setAgent s i { a with resources := a.resources + 1/10 }, k + 1)
      else
        some (setAgent s i
          { a with detection_exposure := min 1 (a.detection_exposure + 1/10) }, k + 1)
    else some (s, k)
  | none => none

/-- `Operative.step`. -/
def operative_step (r : ℕ → ℚ) (s : ModelState) (k : ℕ) (i : ℕ) :
    Option (ModelState × ℕ) :=
  match abstract_step s i with
  | some s1 =>
    match get_agent_by_id s1 i with
    | some a =>
      if a.active then
        match a.economic_stress with
        | some es =>
          perform_abstract_activity r
            (if es > 7/10 then
              setAgent s1 i { a with risk_tolerance := min 1 (a.risk_tolerance + 5/100) }
            else s1) k i
        | none => none
      else some (s1, k)
    | none => none
  | none => none

/-- `Broker.mediate_connections`. -/
def mediate_connections (s : ModelState) (i : ℕ) : Option ModelState :=
  match neighborsOpt s i, get_agent_by_id s i with
  | some nbrs, some a =>
    if nbrs.length ≥ 2 then
      some (setAgent s i
        { a with resources := a.resources + (nbrs.length : ℚ) * (2/100) })
    else some s
  | _, _ => none

/-- `Broker.step`. -/
def broker_step (s : ModelState) (i : ℕ) : Option ModelState :=
  match abstract_step s i with
  | some s1 =>
    match get_agent_by_id s1 i with
    | some a => if a.active then mediate_connections s1 i else some s1
    | none => none
  | none => none

/-- `Facilitator.maintain_legitimacy`. -/
def maintain_legitimacy (s : ModelState) (i : ℕ) : Option ModelState :=
  match get_agent_by_id s i with
  | some a =>
    if a.resources > 2/10 then
      some (setAgent s i
        { a with resources := a.resources - 5/100,
                 legitimacy := min 1 (a.legitimacy + 5/100),
                 detection_exposure := max 0 (a.detection_exposure - 5/100) })
    else some s
  | none => none

/-- `Facilitator.step`. -/
def facilitator_step (s : ModelState) (i : ℕ) : Option ModelState :=
  match abstract_step s i with
  | some s1 =>
    match get_agent_by_id s1 i with
    | some a => if a.active then maintain_legitimacy s1 i else some s1
    | none => none
  | none => none

/-- `AIEMModel.report_suspicious_activity`. -/
def report_suspicious_activity (s : ModelState) (target : ℕ) : ModelState :=
  let s1 := { s with reports_this_step := s.reports_this_step + 1 }
  match get_agent_by_id s1 target with
  | some a =>
    setAgent s1 target { a with detection_exposure := min 1 (a.detection_exposure + 2/10) }
  | none => s1

/-- Body of the reporting loop in `CommunityMember.consider_reporting`;
one random draw per neighbor whose exposure exceeds 0.7. -/
def reportStep (r : ℕ → ℚ) (rp : ℚ) (acc : ModelState × ℕ) (nb : ℕ) :
    ModelState × ℕ :=
  match get_agent_by_id acc.1 nb with
  | some ag =>
    if ag.detection_exposure > 7/10 then
      if r acc.2 < rp * (1/10) then (report_suspicious_activity acc.1 nb, acc.2 + 1)
      else (acc.1, acc.2 + 1)
    else acc
  | none => acc

/-- `CommunityMember.consider_reporting`. -/
def consider_reporting (r : ℕ → ℚ) (s : ModelState) (k : ℕ) (i : ℕ) :
    Option (ModelState × ℕ) :=
  match neighborsOpt s i, get_agent_by_id s i with
  | some nbrs, some a =>
    match a.reporting_propensity with
    | some rp => some (nbrs.foldl (reportStep r rp) (s, k))
    | none => none
  | _, _ => none

/-- `CommunityMember.step`. -/
def community_step (r : ℕ → ℚ) (s : ModelState) (k : ℕ) (i : ℕ) :
    Option (ModelState × ℕ) :=
  match abstract_step s i with
  | some s1 =>
    match get_agent_by_id s1 i with
    | some a => if a.active then consider_reporting r s1 k i else some (s1, k)
    | none => none
  | none => none

/-- `AIEMModel.intervene_agent`.  The first statement bumps the ghost call
counter; everything after it is the source verbatim. -/
def intervene_agent (s : ModelState) (i : ℕ) : ModelState :=
  let s0 := { s with intervene_calls := s.intervene_calls + 1 }
  match get_agent_by_id s0 i with
  | some a =>
    if a.active then
      let a1 : AgentState := { a with arrest_count := a.arrest_count + 1 }
      let s1 := { setAgent s0 i a1 with arrests_this_step := s0.arrests_this_step + 1 }
      if a1.arrest_count ≥ 2 then
        let s2 := setAgent s1 i { a1 with active := false }
        if i ∈ s2.nodes then { s2 with nodes := s2.nodes.erase i } else s2
      else s1
    else s0
  | none => s0

/-- Body of the monitoring loop in `Authority.monitor_and_intervene`; `i` is
the acting Authority, `j` the scanned agent; one draw per active
illicit-role agent. -/
def monitorStep (r : ℕ → ℚ) (i : ℕ) (acc : Option (ModelState × ℕ)) (j : ℕ) :
    Option (ModelState × ℕ) :=
  match acc with
  | none => none
  | some (st, k) =>
    match get_agent_by_id st j with
    | some ag =>
      if (ag.role = Role.Leader ∨ ag.role = Role.Operative ∨ ag.role = Role.Broker) ∧
          ag.active then
        match get_agent_by_id st i with
        | some selfAg =>
          match selfAg.monitoring_capacity with
          | some mc =>
            if r k < ag.detection_exposure * mc * (5/100) then
              let st1 := intervene_agent st j
              match get_agent_by_id st1 i with
              | some selfAg1 =>
                match selfAg1.intervention_resources with
                | some ir =>
                  some (setAgent st1 i
                    { selfAg1 with intervention_resources := some (ir - 1/10) }, k + 1)
                | none => none
              | none => none
            else some (st, k + 1)
          | none => none
        | none => none
      else some (st, k)
    | none => none

/-- `Authority.monitor_and_intervene`: scan the whole registry in creation
order, then recover intervention resources. -/
def monitor_and_intervene (r : ℕ → ℚ) (s : ModelState) (k : ℕ) (i : ℕ) :
    Option (ModelState × ℕ) :=
  match (List.range s.agents.length).foldl (monitorStep r i) (some (s, k)) with
  | some (s1, k1) =>
    match get_agent_by_id s1 i with
    | some a =>
      match a.intervention_resources with
      | some ir =>
        some (setAgent s1 i
          { a with intervention_resources := some (min 1 (ir + 5/100)) }, k1)
      | none => none
    | none => none
  | none => none

/-- `Authority.step`: the monitoring pass runs regardless of the Authority's
own `active` flag. -/
def authority_step (r : ℕ → ℚ) (s : ModelState) (k : ℕ) (i : ℕ) :
    Option (ModelState × ℕ) :=
  match abstract_step s i with
  | some s1 => monitor_and_intervene r s1 k i
  | none => none

/-- Virtual dispatch of `agent.step()` on the agent's class. -/
def agent_step (r : ℕ → ℚ) (s : ModelState) (k : ℕ) (i : ℕ) :
    Option (ModelState × ℕ) :=
  match get_agent_by_id s i with
  | some a =>
    match a.role with
    | Role.Leader => (leader_step s i).map (fun t => (t, k))
    | Role.Operative => operative_step r s k i
    | Role.Broker => (broker_step s i).map (fun t => (t, k))
    | Role.Facilitator => (facilitator_step s i).map (fun t => (t, k))
    | Role.CommunityMember => community_step r s k i
    | Role.Authority => authority_step r s k i
  | none => none

/-- `AIEMModel.count_active_by_role`. -/
def count_active_by_role (s : ModelState) (ρ : Role) : ℕ :=
  (s.agents.filter (fun a => decide (a.role = ρ) && a.active)).length

/-- `AIEMModel.total_resources`: the sum runs over ALL agents, inactive ones
included (every agent class has the attribute). -/
def total_resources (s : ModelState) : ℚ :=
  (s.agents.map (·.resources)).sum

/-- `AIEMModel.average_detection_exposure` (0 when no agent is active). -/
def average_detection_exposure (s : ModelState) : ℚ :=
  let es := (s.agents.filter (·.active)).map (·.detection_exposure)
  if es.length = 0 then 0 else es.sum / (es.length : ℚ)

/-- Number of live undirected edges, counting each pair once. -/
def edge_count (s : ModelState) : ℕ :=
  (s.nodes.map (fun u => (s.nodes.filter (fun v => decide (u < v) && s.adj u v)).length)).sum

/-- `nx.density`. -/
def network_density (s : ModelState) : ℚ :=
  if s.nodes.length ≤ 1 then 0
  else (2 * (edge_count s : ℚ)) / ((s.nodes.length : ℚ) * ((s.nodes.length : ℚ) - 1))

/-- Local clustering coefficient of node `v` (0 for degree below 2). -/
def local_clustering (s : ModelState) (v : ℕ) : ℚ :=
  let nb := s.nodes.filter (fun j => s.adj v j)
  if nb.length < 2 then 0
  else
    let t := (nb.map (fun u => (nb.filter (fun w => decide (u < w) && s.adj u w)).length)).sum
    (2 * (t : ℚ)) / ((nb.length : ℚ) * ((nb.length : ℚ) - 1))

/-- `nx.average_clustering`, totalised with value 0 on the empty graph
(networkx raises there; the engine's runs keep the graph nonempty since only
illicit-role nodes are ever removed). -/
def average_clustering (s : ModelState) : ℚ :=
  if s.nodes.length = 0 then 0
  else (s.nodes.map (local_clustering s)).sum / (s.nodes.length : ℚ)

/-- One DataCollector row. -/
def collect_metrics (s : ModelState) : MetricsRow :=
  { activeLeaders := count_active_by_role s Role.Leader
    activeOperatives := count_active_by_role s Role.Operative
    activeBrokers := count_active_by_role s Role.Broker
    activeFacilitators := count_active_by_role s Role.Facilitator
    totalResources := total_resources s
    averageDetectionExposure := average_detection_exposure s
    arrestsThisStep := s.arrests_this_step
    reportsThisStep := s.reports_this_step
    networkDensity := network_density s
    averageClustering := average_clustering s }

/-- The illicit-role population the stop condition and arrest rate use. -/
def active_illicit (s : ModelState) : ℕ :=
  count_active_by_role s Role.Leader + count_active_by_role s Role.Operative +
    count_active_by_role s Role.Broker

/-- `AIEMModel.apply_policy_intervention`; unknown kinds are a silent no-op. -/
def apply_policy_intervention (s : ModelState) (kind : String) (intensity : ℚ) :
    ModelState :=
  if kind = "monitoring" then
    { s with agents := s.agents.map fun a =>
        if a.role = Role.Authority then
          { a with monitoring_capacity :=
              a.monitoring_capacity.map fun mc => min 1 (mc + intensity * (3/10)) }
        else a }
  else if kind = "economic_support" then
    { s with agents := s.agents.map fun a =>
        if a.role = Role.Operative ∨ a.role = Role.CommunityMember then
          let a1 := match a.economic_stress with
            | some es => { a with economic_stress := some (max 0 (es - intensity * (3/10))) }
            | none => a
          { a1 with resources := a1.resources + intensity * (2/10) }
        else a }
  else if kind = "community_engagement" then
    { s with agents := s.agents.map fun a =>
        if a.role = Role.CommunityMember then
          { a with reporting_propensity :=
              a.reporting_propensity.map fun rp => min 1 (rp + intensity * (2/10)) }
        else a }
  else s

/-- The shuffled activation loop of `AIEMModel.step`. -/
def step_agents (r : ℕ → ℚ) (order : List ℕ) (acc : Option (ModelState × ℕ)) :
    Option (ModelState × ℕ) :=
  order.foldl (fun acc i =>
    match acc with
    | some (st, k) => agent_step r st k i
    | none => none) acc

/-- `AIEMModel.step`: reset the per-step counters, activate every agent in
the shuffled order, recompute the arrest rate, record one metrics row, and
check the stop condition. -/
def step (r : ℕ → ℚ) (order : List ℕ) (s : ModelState) : Option ModelState :=
  let s0 : ModelState :=
    { s with arrests_this_step := 0, reports_this_step := 0, intervene_calls := 0 }
  match step_agents r order (some (s0, 0)) with
  | some (s1, _) =>
    let illicit := active_illicit s1
    let s2 := { s1 with recent_arrest_rate :=
        if illicit > 0 then (s1.arrests_this_step : ℚ) / (illicit : ℚ) else 0 }
    let s3 := { s2 with metrics := s2.metrics ++ [collect_metrics s2] }
    some (if illicit = 0 then { s3 with running := false } else s3)
  | none => none

/-- One call into the engine's public API, as the runner script drives it:
scheduled policy interventions, the two agent callbacks, and `step` itself
(with its shuffle order and random-draw stream explicit). -/
inductive EngineCall
  | policy (kind : String) (intensity : ℚ)
  | report (target : ℕ)
  | arrest (target : ℕ)
  | engineStep (r : ℕ → ℚ) (order : List ℕ)

/-- Execute one engine API call. -/
def exec_call (s : ModelState) : EngineCall → Option ModelState
  | EngineCall.policy kind intensity => some (apply_policy_intervention s kind intensity)
  | EngineCall.report t => some (report_suspicious_activity s t)
  | EngineCall.arrest t => some (intervene_agent s t)
  | EngineCall.engineStep r order => step r order s

/-- Execute a sequence of engine API calls. -/
def run (calls : List EngineCall) (s : ModelState) : Option ModelState :=
  calls.foldl (fun acc c =>
    match acc with
    | some st => exec_call st c
    | none => none) (some s)

/-- Position-indexed bounded quantifier over a list, stated through `get?` so
it composes with the lookup lemmas, and decidable on concrete states. -/
def AllIdx {α : Type _} (l : List α) (P : ℕ → α → Prop) : Prop :=
  ∀ i a, l.get? i = some a → P i a

def decAllIdx {α : Type _} (l : List α) (P : ℕ → α → Prop)
    [inst : ∀ i a, Decidable (P i a)] : Decidable (AllIdx l P) :=
  match l with
  | [] => isTrue (by intro i a h; rw [List.get?_nil] at h; cases h)
  | x :: xs =>
    have : Decidable (AllIdx xs fun i a => P (i + 1) a) := decAllIdx xs _
    decidable_of_iff (P 0 x ∧ AllIdx xs fun i a => P (i + 1) a)
      (by
        constructor
        · rintro ⟨h0, hs⟩ i a ha
          cases i with
          | zero =>
            rw [List.get?_cons_zero] at ha
            injection ha with ha
            subst ha
            exact h0
          | succ n => rw [List.get?_cons_succ] at ha; exact hs n a ha
        · intro h
          exact ⟨h 0 x List.get?_cons_zero,
            fun i a ha => h (i + 1) a (by simpa using ha)⟩)

instance {α : Type _} (l : List α) (P : ℕ → α → Prop) [∀ i a, Decidable (P i a)] :
    Decidable (AllIdx l P) := decAllIdx l P

/-! Structural relations between states before and after an operation. -/

/-- The part of an agent record the structural invariants depend on: class,
activity, arrest count, and which role-specific attributes exist. -/
def skelA (a : AgentState) : Role × Bool × ℕ × Bool × Bool × Bool × Bool × Bool :=
  (a.role, a.active, a.arrest_count, a.economic_stress.isSome,
   a.monitoring_capacity.isSome, a.intervention_resources.isSome,
   a.vulnerability.isSome, a.reporting_propensity.isSome)

/-- Pointwise relation between an agent before (`a`) and after (`b`) any
engine operation: the class and attribute layout never change, and `active`
is never switched back on. -/
def AgentMono (a b : AgentState) : Prop :=
  b.role = a.role ∧ (b.active = true → a.active = true) ∧
  b.economic_stress.isSome = a.economic_stress.isSome ∧
  b.monitoring_capacity.isSome = a.monitoring_capacity.isSome ∧
  b.intervention_resources.isSome = a.intervention_resources.isSome ∧
  b.vulnerability.isSome = a.vulnerability.isSome ∧
  b.reporting_propensity.isSome = a.reporting_propensity.isSome

/-- Registry-level relation every engine operation satisfies. -/
def AgentsRel (s t : ModelState) : Prop :=
  t.agents.length = s.agents.length ∧ t.adj = s.adj ∧
  ∀ j a b, s.agents.get? j = some a → t.agents.get? j = some b → AgentMono a b

/-! Well-formedness and attribute bounds. -/

/-- Each agent class defines the role-specific attributes its behavior
reads (`Operative.__init__` sets `economic_stress`, `Authority.__init__`
sets `monitoring_capacity` and `intervention_resources`,
`CommunityMember.__init__` sets `reporting_propensity`). -/
def RoleAttrsOK (a : AgentState) : Prop :=
  (a.role = Role.Operative → a.economic_stress.isSome = true) ∧
  (a.role = Role.Authority →
    a.monitoring_capacity.isSome = true ∧ a.intervention_resources.isSome = true) ∧
  (a.role = Role.CommunityMember → a.reporting_propensity.isSome = true)

/-- Structural invariant of the engine: attribute layout matches the role,
the node list is duplicate-free and points into the registry, the node set
is exactly the set of ids of active agents, and an agent is inactive exactly
when it has been arrested twice. -/
def WF (s : ModelState) : Prop :=
  (∀ a ∈ s.agents, RoleAttrsOK a) ∧
  s.nodes.Nodup ∧
  (∀ v ∈ s.nodes, v < s.agents.length) ∧
  AllIdx s.agents (fun i a => a.active = true ↔ i ∈ s.nodes) ∧
  AllIdx s.agents (fun _ a => 2 ≤ a.arrest_count ↔ a.active = false)

/-- The unit interval. -/
def UnitI (x : ℚ) : Prop := 0 ≤ x ∧ x ≤ 1

instance (x : ℚ) : Decidable (UnitI x) := inferInstanceAs (Decidable (_ ∧ _))

/-- The unit interval, for an attribute a role may lack. -/
def UnitIOpt : Option ℚ → Prop
  | none => True
  | some v => UnitI v

instance : (o : Option ℚ) → Decidable (UnitIOpt o)
  | none => isTrue trivial
  | some v => inferInstanceAs (Decidable (UnitI v))

/-- The clamped attributes of the data model, `resources` and
`intervention_resources` excepted (both are unbounded in the source). -/
def BoundedAttrs (a : AgentState) : Prop :=
  UnitI a.legitimacy ∧ UnitI a.risk_tolerance ∧ UnitI a.social_capital ∧
  UnitI a.detection_exposure ∧ UnitIOpt a.economic_stress ∧
  UnitIOpt a.monitoring_capacity ∧ UnitIOpt a.vulnerability ∧
  UnitIOpt a.reporting_propensity

/-- Every agent of the registry has its clamped attributes in [0,1]. -/
def BndAll (s : ModelState) : Prop := ∀ a ∈ s.agents, BoundedAttrs a

/-- Preservation bundle satisfied by each agent-level operation during a
step: registry relation, untouched engine fields, the ghost-counter
synchronisation, and preservation of well-formedness and bounds. -/
def Pres (s t : ModelState) : Prop :=
  AgentsRel s t ∧ t.running = s.running ∧
  t.metrics = s.metrics ∧ t.recent_arrest_rate = s.recent_arrest_rate ∧
  (s.arrests_this_step = s.intervene_calls →
    t.arrests_this_step = t.intervene_calls) ∧
  (WF s → WF t) ∧ (BndAll s → BndAll t)

/-- Side condition on an engine call: scenario intensities are
nonnegative. -/
def CallOK : EngineCall → Prop
  | EngineCall.policy _ intensity => 0 ≤ intensity
  | EngineCall.report _ => True
  | EngineCall.arrest _ => True
  | EngineCall.engineStep _ _ => True

/-- Once the engine is stopped, no illicit-role agent is active. -/
def StoppedDone (s : ModelState) : Prop :=
  s.running = false → active_illicit s = 0

/-! Initial states, as `AIEMModel.__init__` and `_create_agents` build them:
ids 0..n-1, a node per agent, everyone active with a clean record. -/

/-- What holds of an engine state right after construction (whatever the
seeded attribute draws were). -/
def InitOK (s : ModelState) : Prop :=
  s.nodes = List.range s.agents.length ∧
  (∀ a ∈ s.agents, RoleAttrsOK a ∧ a.active = true ∧ a.arrest_count = 0) ∧
  s.running = true ∧ s.arrests_this_step = 0 ∧ s.reports_this_step = 0 ∧
  s.recent_arrest_rate = 0 ∧ s.intervene_calls = 0

instance (a : AgentState) : Decidable (RoleAttrsOK a) := by
  unfold RoleAttrsOK
  infer_instance

instance (a : AgentState) : Decidable (BoundedAttrs a) := by
  unfold BoundedAttrs
  infer_instance

instance (s : ModelState) : Decidable (BndAll s) := by
  unfold BndAll
  infer_instance

instance (s : ModelState) : Decidable (WF s) := by
  unfold WF
  infer_instance

instance (s : ModelState) : Decidable (InitOK s) := by
  unfold InitOK
  infer_instance

/-! Claim C7. -/

/-- Claim C7 as stated, formalised from the spec's words: an
`economic_support` intervention lowers `economic_stress` by
`intensity*0.3` (floored at 0) and raises `resources` by `intensity*0.2`
for EVERY Operative and EVERY CommunityMember, which presupposes every
such agent carries an `economic_stress` attribute. -/
def EconomicSupportClaim (s : ModelState) (intensity : ℚ) : Prop :=
  ∀ i a, s.agents.get? i = some a →
    (a.role = Role.Operative ∨ a.role = Role.CommunityMember) →
    ∃ es, a.economic_stress = some es ∧
      (apply_policy_intervention s "economic_support" intensity).agents.get? i =
        some { a with
          economic_stress := some (max 0 (es - intensity * (3/10))),
          resources := a.resources + intensity * (2/10) }

/-- A CommunityMember as `CommunityMember.__init__` builds it: there is no
`economic_stress` attribute. -/
def exCommunity : AgentState :=
  { role := Role.CommunityMember, resources := 1/2, legitimacy := 9/10,
    risk_tolerance := 1/2, social_capital := 1/2, detection_exposure := 0,
    vulnerability := some (1/2), reporting_propensity := some (1/2) }

/-- A one-member engine state holding a single CommunityMember. -/
def exC7 : ModelState :=
  { agents := [exCommunity], nodes := [0], adj := fun _ _ => false,
    arrests_this_step := 0, reports_this_step := 0, recent_arrest_rate := 0,
    running := true, metrics := [], intervene_calls := 0 }

/-! Claim C2. -/

/-- Whether id `j` resolves to an Operative or Broker — the recipients of
the distribution loop. -/
def is_ob_target (s : ModelState) (j : ℕ) : Bool :=
  match get_agent_by_id s j with
  | some b => decide (b.role = Role.Operative ∨ b.role = Role.Broker)
  | none => false

/-! Concrete states for the counterexamples and the witnesses. -/

/-- An Operative with an even chance of activity success. -/
def exOpA : AgentState :=
  { role := Role.Operative, resources := 1/5, legitimacy := 1/2,
    risk_tolerance := 6/10, social_capital := 1/2, detection_exposure := 0,
    economic_stress := some (1/2) }

/-- An Operative whose abstract activity never succeeds. -/
def exOpB : AgentState :=
  { role := Role.Operative, resources := 1/5, legitimacy := 1/2,
    risk_tolerance := 6/10, social_capital := 0, detection_exposure := 0,
    economic_stress := some (1/2) }

/-- A freshly constructed two-Operative engine with no edges. -/
def exC1 : ModelState :=
  { agents := [exOpA, exOpB], nodes := [0, 1], adj := fun _ _ => false,
    arrests_this_step := 0, reports_this_step := 0, recent_arrest_rate := 0,
    running := true, metrics := [], intervene_calls := 0 }

/-- One fixed stream of seeded draws. -/
def rC1 : ℕ → ℚ := fun k => if k = 0 then 1/5 else 9/10

/-- A Leader holding one unit of resources. -/
def exLeader : AgentState :=
  { role := Role.Leader, resources := 1, legitimacy := 1/2,
    risk_tolerance := 1/2, social_capital := 1/2, detection_exposure := 1/4 }

/-- A Leader (id 0) whose two neighbors are an Operative (id 1) and a
CommunityMember (id 2). -/
def exC2 : ModelState :=
  { agents := [exLeader, exOpA, exCommunity],
    nodes := [0, 1, 2],
    adj := fun u v =>
      (u == 0 && (v == 1 || v == 2)) || (v == 0 && (u == 1 || u == 2)),
    arrests_this_step := 0, reports_this_step := 0, recent_arrest_rate := 0,
    running := true, metrics := [], intervene_calls := 0 }

/-- An Authority at the default monitoring capacity 0.5. -/
def exAuthority : AgentState :=
  { role := Role.Authority, resources := 1/2, legitimacy := 1/2,
    risk_tolerance := 1/2, social_capital := 1/2, detection_exposure := 1/2,
    monitoring_capacity := some (1/2), intervention_resources := some 1 }

/-- A one-Authority engine state. -/
def exC8 : ModelState :=
  { agents := [exAuthority], nodes := [0], adj := fun _ _ => false,
    arrests_this_step := 0, reports_this_step := 0, recent_arrest_rate := 0,
    running := true, metrics := [], intervene_calls := 0 }

/-! Theorems. -/

/-! Generic list helpers. -/
theorem foldl_invariant {α σ : Type _} (P : σ → Prop) (f : σ → α → σ) :
    ∀ (l : List α) (init : σ), P init → (∀ st x, x ∈ l → P st → P (f st x)) →
      P (l.foldl f init) := by
  intro l
  induction l with
  | nil => intro init h _; exact h
  | cons x xs ih =>
    intro init h hstep
    exact ih _ (hstep _ _ (by simp) h) (fun st y hy hp => hstep st y (by simp [hy]) hp)

theorem get?_set_self {α : Type _} {l : List α} {i : ℕ} {a : α} (b : α)
    (h : l.get? i = some a) : (l.set i b).get? i = some b := by
  rw [List.get?_set, if_pos rfl, h]; rfl

theorem get?_set_other {α : Type _} (l : List α) {i j : ℕ} (b : α) (hne : i ≠ j) :
    (l.set i b).get? j = l.get? j := by
  rw [List.get?_set]; simp [hne]

theorem map_set_eq {α β : Type _} (f : α → β) {l : List α} {j : ℕ} {a : α} (b : α)
    (h : l.get? j = some a) (hfb : f b = f a) : (l.set j b).map f = l.map f := by
  apply List.ext
  intro n
  rw [List.get?_map, List.get?_map]
  rcases eq_or_ne j n with rfl | hne
  · rw [get?_set_self b h, h]; simp [hfb]
  · rw [get?_set_other l b hne]

theorem sum_map_set {α : Type _} (f : α → ℚ) :
    ∀ (l : List α) (j : ℕ) (a b : α), l.get? j = some a →
      ((l.set j b).map f).sum = (l.map f).sum - f a + f b := by
  intro l
  induction l with
  | nil => intro j a b h; rw [List.get?_nil] at h; cases h
  | cons x xs ih =>
    intro j a b h
    cases j with
    | zero =>
      rw [List.get?_cons_zero] at h
      injection h with h; subst h
      simp only [List.set, List.map, List.sum_cons]; ring
    | succ n =>
      rw [List.get?_cons_succ] at h
      simp only [List.set, List.map, List.sum_cons, ih n a b h]; ring

theorem countP_mono_pointwise {α : Type _} (p : α → Bool) :
    ∀ (l l' : List α), l'.length = l.length →
      (∀ j a b, l.get? j = some a → l'.get? j = some b → p b = true → p a = true) →
      l'.countP p ≤ l.countP p := by
  intro l
  induction l with
  | nil =>
    intro l' hlen _
    rw [List.length_nil, List.length_eq_zero] at hlen
    subst hlen; simp
  | cons x xs ih =>
    intro l' hlen h
    cases l' with
    | nil => simp
    | cons y ys =>
      rw [List.countP_cons, List.countP_cons]
      have h0 := h 0 x y List.get?_cons_zero List.get?_cons_zero
      have hr := ih ys (by simpa using hlen)
        (fun j a b ha hb => h (j + 1) a b (by simpa using ha) (by simpa using hb))
      by_cases hy : p y = true
      · simp only [hy, h0 hy, if_true]; omega
      · simp only [hy, if_false]
        exact le_trans hr (Nat.le_add_right _ _)

theorem agentMono_refl (a : AgentState) : AgentMono a a :=
  ⟨rfl, fun h => h, rfl, rfl, rfl, rfl, rfl⟩

theorem agentMono_trans {a b c : AgentState} (h1 : AgentMono a b) (h2 : AgentMono b c) :
    AgentMono a c :=
  ⟨h2.1.trans h1.1, fun h => h1.2.1 (h2.2.1 h), h2.2.2.1.trans h1.2.2.1,
   h2.2.2.2.1.trans h1.2.2.2.1, h2.2.2.2.2.1.trans h1.2.2.2.2.1,
   h2.2.2.2.2.2.1.trans h1.2.2.2.2.2.1, h2.2.2.2.2.2.2.trans h1.2.2.2.2.2.2⟩

theorem agentMono_of_skel {a b : AgentState} (h : skelA b = skelA a) : AgentMono a b := by
  unfold skelA at h
  simp only [Prod.mk.injEq] at h
  exact ⟨h.1, fun hx => h.2.1 ▸ hx, h.2.2.2.1, h.2.2.2.2.1, h.2.2.2.2.2.1,
    h.2.2.2.2.2.2.1, h.2.2.2.2.2.2.2⟩

theorem agentsRel_refl (s : ModelState) : AgentsRel s s :=
  ⟨rfl, rfl, fun _ a b ha hb => by
    rw [ha] at hb; injection hb with hb; subst hb; exact agentMono_refl a⟩

theorem agentsRel_trans {s t u : ModelState} (h1 : AgentsRel s t) (h2 : AgentsRel t u) :
    AgentsRel s u := by
  refine ⟨h2.1.trans h1.1, h2.2.1.trans h1.2.1, fun j a c ha hc => ?_⟩
  cases hb : t.agents.get? j with
  | none =>
    rw [List.get?_eq_none] at hb
    have hu : u.agents.length ≤ j := by rw [h2.1]; exact hb
    rw [List.get?_eq_none.mpr hu] at hc; cases hc
  | some b => exact agentMono_trans (h1.2.2 j a b ha hb) (h2.2.2 j b c hb hc)

theorem WF_congr {s t : ModelState} (hsk : t.agents.map skelA = s.agents.map skelA)
    (hn : t.nodes = s.nodes) (h : WF s) : WF t := by
  obtain ⟨hra, hnd, hb, hact, harr⟩ := h
  have hlen : t.agents.length = s.agents.length := by
    have := congrArg List.length hsk
    simpa using this
  have hpt : ∀ j b, t.agents.get? j = some b →
      ∃ a, s.agents.get? j = some a ∧ skelA b = skelA a := by
    intro j b hbj
    have := congrArg (fun l => l.get? j) hsk
    simp only [List.get?_map] at this
    rw [hbj] at this
    obtain ⟨a, ha, hfa⟩ := Option.map_eq_some'.mp this.symm
    exact ⟨a, ha, hfa.symm⟩
  refine ⟨?_, hn ▸ hnd, ?_, ?_, ?_⟩
  · intro b hbmem
    obtain ⟨j, hbj⟩ := List.mem_iff_get?.mp hbmem
    obtain ⟨a, ha, hskel⟩ := hpt j b hbj
    have hmono := agentMono_of_skel hskel
    have := hra a (List.get?_mem ha)
    unfold skelA at hskel
    simp only [Prod.mk.injEq] at hskel
    exact ⟨fun hr => hskel.2.2.2.1 ▸ this.1 (hskel.1 ▸ hr),
      fun hr => ⟨hskel.2.2.2.2.1 ▸ (this.2.1 (hskel.1 ▸ hr)).1,
        hskel.2.2.2.2.2.1 ▸ (this.2.1 (hskel.1 ▸ hr)).2⟩,
      fun hr => hskel.2.2.2.2.2.2.2 ▸ this.2.2 (hskel.1 ▸ hr)⟩
  · intro v hv; rw [hn] at hv; exact hlen ▸ hb v hv
  · intro j b hbj
    obtain ⟨a, ha, hskel⟩ := hpt j b hbj
    unfold skelA at hskel
    simp only [Prod.mk.injEq] at hskel
    rw [hn, hskel.2.1]
    exact hact j a ha
  · intro j b hbj
    obtain ⟨a, ha, hskel⟩ := hpt j b hbj
    unfold skelA at hskel
    simp only [Prod.mk.injEq] at hskel
    rw [hskel.2.1, hskel.2.2.1]
    exact harr j a ha

theorem pres_refl (s : ModelState) : Pres s s :=
  ⟨agentsRel_refl s, rfl, rfl, rfl, fun h => h, fun h => h, fun h => h⟩

theorem pres_trans {s t u : ModelState} (h1 : Pres s t) (h2 : Pres t u) : Pres s u :=
  ⟨agentsRel_trans h1.1 h2.1, h2.2.1.trans h1.2.1,
   h2.2.2.1.trans h1.2.2.1, h2.2.2.2.1.trans h1.2.2.2.1,
   fun h => h2.2.2.2.2.1 (h1.2.2.2.2.1 h),
   fun h => h2.2.2.2.2.2.1 (h1.2.2.2.2.2.1 h),
   fun h => h2.2.2.2.2.2.2 (h1.2.2.2.2.2.2 h)⟩

theorem pres_setAgent {s : ModelState} {i : ℕ} {a : AgentState} (b : AgentState)
    (h : get_agent_by_id s i = some a) (hsk : skelA b = skelA a)
    (hb : BndAll s → BoundedAttrs b) : Pres s (setAgent s i b) := by
  unfold get_agent_by_id at h
  refine ⟨⟨List.length_set _ _ _, rfl, ?_⟩, rfl, rfl, rfl, fun hc => hc, ?_, ?_⟩
  · intro j x y hx hy
    simp only [setAgent] at hy
    rcases eq_or_ne i j with rfl | hne
    · rw [h] at hx; injection hx with hx; subst hx
      rw [get?_set_self b h] at hy; injection hy with hy; subst hy
      exact agentMono_of_skel hsk
    · rw [get?_set_other _ b hne] at hy
      rw [hx] at hy; injection hy with hy; subst hy
      exact agentMono_refl x
  · exact WF_congr (map_set_eq skelA b h hsk) rfl
  · intro hB x hx
    rcases List.mem_or_eq_of_mem_set hx with hx | rfl
    · exact hB x hx
    · exact hb hB

/-! Interval arithmetic helpers for the clamped updates. -/
theorem unitI_avg {l : List ℚ} (hpos : 0 < l.length) (h : ∀ x ∈ l, UnitI x) :
    UnitI (l.sum / (l.length : ℚ)) := by
  have h0 : (0 : ℚ) ≤ l.sum := List.sum_nonneg fun x hx => (h x hx).1
  have h1 : l.sum ≤ (l.length : ℚ) := by
    have := List.sum_le_card_nsmul l 1 fun x hx => (h x hx).2
    simpa using this
  have hl : (0 : ℚ) < (l.length : ℚ) := by exact_mod_cast hpos
  exact ⟨div_nonneg h0 hl.le, (div_le_one hl).mpr h1⟩

theorem unitI_min_add {x d : ℚ} (hx : UnitI x) (hd : 0 ≤ d) : UnitI (min 1 (x + d)) :=
  ⟨le_min (by norm_num) (add_nonneg hx.1 hd), min_le_left _ _⟩

theorem unitI_max_sub {x d : ℚ} (hx : UnitI x) (hd : 0 ≤ d) : UnitI (max 0 (x - d)) :=
  ⟨le_max_left _ _, max_le (by norm_num) (by linarith [hx.2])⟩

theorem unitI_shrink {x : ℚ} (hx : UnitI x) : UnitI (x * (95 / 100)) :=
  ⟨mul_nonneg hx.1 (by norm_num), by nlinarith [hx.1, hx.2]⟩

theorem unitI_convex {x y : ℚ} (hx : UnitI x) (hy : UnitI y) :
    UnitI ((7 / 10) * x + (3 / 10) * y) :=
  ⟨by nlinarith [hx.1, hy.1], by nlinarith [hx.2, hy.2]⟩

/-! Preservation lemmas for the agent-level operations. -/
theorem update_social_capital_pres {s : ModelState} {i : ℕ} {t : ModelState}
    (h : update_social_capital s i = some t) : Pres s t := by
  cases hn : neighborsOpt s i with
  | none => simp [update_social_capital, hn] at h
  | some nbrs =>
    cases hg : get_agent_by_id s i with
    | none => simp [update_social_capital, hn, hg] at h
    | some a =>
      simp only [update_social_capital, hn, hg] at h
      split at h
      case isTrue hlen =>
        split at h
        case isTrue hlegs =>
          injection h with h; subst h
          refine pres_setAgent _ hg rfl ?_
          intro hB
          have hA := hB a (List.get?_mem hg)
          have havg : UnitI ((nbrs.filterMap fun n =>
              (get_agent_by_id s n).map (·.legitimacy)).sum /
              ((nbrs.filterMap fun n =>
                (get_agent_by_id s n).map (·.legitimacy)).length : ℚ)) := by
            refine unitI_avg (by omega) ?_
            intro x hx
            obtain ⟨n, _, hfx⟩ := List.mem_filterMap.mp hx
            obtain ⟨ag, hag, hleg⟩ := Option.map_eq_some'.mp hfx
            have := hB ag (List.get?_mem hag)
            exact hleg ▸ this.1
          exact ⟨hA.1, hA.2.1, unitI_convex hA.2.2.1 havg, hA.2.2.2.1,
            hA.2.2.2.2.1, hA.2.2.2.2.2.1, hA.2.2.2.2.2.2.1, hA.2.2.2.2.2.2.2⟩
        case isFalse =>
          injection h with h; subst h; exact pres_refl s
      case isFalse =>
        injection h with h; subst h; exact pres_refl s

theorem adjust_risk_pres {s : ModelState} {i : ℕ} {t : ModelState}
    (h : adjust_risk_from_environment s i = some t) : Pres s t := by
  cases hg : get_agent_by_id s i with
  | none => simp [adjust_risk_from_environment, hg] at h
  | some a =>
    simp only [adjust_risk_from_environment, hg] at h
    split at h
    · injection h with h; subst h
      refine pres_setAgent _ hg rfl ?_
      intro hB
      have hA := hB a (List.get?_mem hg)
      exact ⟨hA.1, unitI_shrink hA.2.1, hA.2.2.1, hA.2.2.2.1,
        hA.2.2.2.2.1, hA.2.2.2.2.2.1, hA.2.2.2.2.2.2.1, hA.2.2.2.2.2.2.2⟩
    · injection h with h; subst h; exact pres_refl s

theorem abstract_step_pres {s : ModelState} {i : ℕ} {t : ModelState}
    (h : abstract_step s i = some t) : Pres s t := by
  cases hg : get_agent_by_id s i with
  | none => simp [abstract_step, hg] at h
  | some a =>
    simp only [abstract_step, hg] at h
    split at h
    · cases hu : update_social_capital s i with
      | none => rw [hu] at h; cases h
      | some s1 =>
        rw [hu] at h
        exact pres_trans (update_social_capital_pres hu) (adjust_risk_pres h)
    · injection h with h; subst h; exact pres_refl s

theorem distStep_pres (i : ℕ) (t0 : ℚ) (st : ModelState) (nb : ℕ) :
    Pres st (distStep i t0 st nb) := by
  cases hg : get_agent_by_id st nb with
  | none => simp only [distStep, hg]; exact pres_refl st
  | some ag =>
    simp only [distStep, hg]
    split
    case isTrue hrole =>
      have h1 : Pres st (setAgent st nb { ag with resources := ag.resources + t0 }) :=
        pres_setAgent _ hg rfl (fun hB => hB ag (List.get?_mem hg))
      cases hg1 : get_agent_by_id
          (setAgent st nb { ag with resources := ag.resources + t0 }) i with
      | none => exact h1
      | some selfAg =>
        exact pres_trans h1
          (pres_setAgent _ hg1 rfl (fun hB => hB selfAg (List.get?_mem hg1)))
    case isFalse => exact pres_refl st

theorem distribute_resources_pres {s t : ModelState} {i : ℕ}
    (h : distribute_resources s i = some t) : Pres s t := by
  cases hn : neighborsOpt s i with
  | none => simp [distribute_resources, hn] at h
  | some nbrs =>
    cases hg : get_agent_by_id s i with
    | none => simp [distribute_resources, hn, hg] at h
    | some a =>
      simp only [distribute_resources, hn, hg] at h
      split at h
      · injection h with h; subst h
        exact foldl_invariant (fun u => Pres s u) _ nbrs s (pres_refl s)
          (fun u x _ hp => pres_trans hp (distStep_pres i _ u x))
      · injection h with h; subst h; exact pres_refl s

theorem leader_step_pres {s t : ModelState} {i : ℕ}
    (h : leader_step s i = some t) : Pres s t := by
  cases ha : abstract_step s i with
  | none => simp [leader_step, ha] at h
  | some s1 =>
    cases hg : get_agent_by_id s1 i with
    | none => simp [leader_step, ha, hg] at h
    | some a =>
      simp only [leader_step, ha, hg] at h
      split at h
      · exact pres_trans (abstract_step_pres ha) (distribute_resources_pres h)
      · injection h with h; subst h; exact abstract_step_pres ha

theorem perform_abstract_activity_pres {r : ℕ → ℚ} {s : ModelState} {k i : ℕ}
    {out : ModelState × ℕ} (h : perform_abstract_activity r s k i = some out) :
    Pres s out.1 := by
  cases hg : get_agent_by_id s i with
  | none => simp [perform_abstract_activity, hg] at h
  | some a =>
    simp only [perform_abstract_activity, hg] at h
    split at h
    · split at h
      · injection h with h; subst h
        exact pres_setAgent _ hg rfl (fun hB => hB a (List.get?_mem hg))
      · injection h with h; subst h
        refine pres_setAgent _ hg rfl ?_
        intro hB
        have hA := hB a (List.get?_mem hg)
        exact ⟨hA.1, hA.2.1, hA.2.2.1, unitI_min_add hA.2.2.2.1 (by norm_num),
          hA.2.2.2.2.1, hA.2.2.2.2.2.1, hA.2.2.2.2.2.2.1, hA.2.2.2.2.2.2.2⟩
    · injection h with h; subst h; exact pres_refl s

theorem operative_step_pres {r : ℕ → ℚ} {s : ModelState} {k i : ℕ}
    {out : ModelState × ℕ} (h : operative_step r s k i = some out) :
    Pres s out.1 := by
  cases ha : abstract_step s i with
  | none => simp [operative_step, ha] at h
  | some s1 =>
    have h1 : Pres s s1 := abstract_step_pres ha
    cases hg : get_agent_by_id s1 i with
    | none => simp [operative_step, ha, hg] at h
    | some a =>
      cases hes : a.economic_stress with
      | none =>
        simp only [operative_step, ha, hg, hes] at h
        split at h
        · cases h
        · injection h with h; subst h; exact h1
      | some es =>
        simp only [operative_step, ha, hg, hes] at h
        split at h
        · by_cases hc : es > 7 / 10
          · rw [if_pos hc] at h
            have h2 : Pres s1 (setAgent s1 i
                { a with risk_tolerance := min 1 (a.risk_tolerance + 5 / 100),
                         economic_stress := some es }) := by
              refine pres_setAgent _ hg ?_ ?_
              · simp [skelA, hes]
              · intro hB
                have hA := hB a (List.get?_mem hg)
                exact ⟨hA.1, unitI_min_add hA.2.1 (by norm_num), hA.2.2.1, hA.2.2.2.1,
                  hes ▸ hA.2.2.2.2.1, hA.2.2.2.2.2.1, hA.2.2.2.2.2.2.1,
                  hA.2.2.2.2.2.2.2⟩
            exact pres_trans (pres_trans h1 h2) (perform_abstract_activity_pres h)
          · rw [if_neg hc] at h
            exact pres_trans h1 (perform_abstract_activity_pres h)
        · injection h with h; subst h; exact h1

theorem mediate_connections_pres {s t : ModelState} {i : ℕ}
    (h : mediate_connections s i = some t) : Pres s t := by
  cases hn : neighborsOpt s i with
  | none => simp [mediate_connections, hn] at h
  | some nbrs =>
    cases hg : get_agent_by_id s i with
    | none => simp [mediate_connections, hn, hg] at h
    | some a =>
      simp only [mediate_connections, hn, hg] at h
      split at h
      · injection h with h; subst h
        exact pres_setAgent _ hg rfl (fun hB => hB a (List.get?_mem hg))
      · injection h with h; subst h; exact pres_refl s

theorem broker_step_pres {s t : ModelState} {i : ℕ}
    (h : broker_step s i = some t) : Pres s t := by
  cases ha : abstract_step s i with
  | none => simp [broker_step, ha] at h
  | some s1 =>
    cases hg : get_agent_by_id s1 i with
    | none => simp [broker_step, ha, hg] at h
    | some a =>
      simp only [broker_step, ha, hg] at h
      split at h
      · exact pres_trans (abstract_step_pres ha) (mediate_connections_pres h)
      · injection h with h; subst h; exact abstract_step_pres ha

theorem maintain_legitimacy_pres {s t : ModelState} {i : ℕ}
    (h : maintain_legitimacy s i = some t) : Pres s t := by
  cases hg : get_agent_by_id s i with
  | none => simp [maintain_legitimacy, hg] at h
  | some a =>
    simp only [maintain_legitimacy, hg] at h
    split at h
    · injection h with h; subst h
      refine pres_setAgent _ hg rfl ?_
      intro hB
      have hA := hB a (List.get?_mem hg)
      exact ⟨unitI_min_add hA.1 (by norm_num), hA.2.1, hA.2.2.1,
        unitI_max_sub hA.2.2.2.1 (by norm_num),
        hA.2.2.2.2.1, hA.2.2.2.2.2.1, hA.2.2.2.2.2.2.1, hA.2.2.2.2.2.2.2⟩
    · injection h with h; subst h; exact pres_refl s

theorem facilitator_step_pres {s t : ModelState} {i : ℕ}
    (h : facilitator_step s i = some t) : Pres s t := by
  cases ha : abstract_step s i with
  | none => simp [facilitator_step, ha] at h
  | some s1 =>
    cases hg : get_agent_by_id s1 i with
    | none => simp [facilitator_step, ha, hg] at h
    | some a =>
      simp only [facilitator_step, ha, hg] at h
      split at h
      · exact pres_trans (abstract_step_pres ha) (maintain_legitimacy_pres h)
      · injection h with h; subst h; exact abstract_step_pres ha

theorem pres_bump_reports (s : ModelState) :
    Pres s { s with reports_this_step := s.reports_this_step + 1 } :=
  ⟨⟨rfl, rfl, fun _ a b ha hb => by
      rw [ha] at hb; injection hb with hb; subst hb; exact agentMono_refl a⟩,
   rfl, rfl, rfl, fun hc => hc, fun hw => hw, fun hb => hb⟩

theorem report_suspicious_activity_pres (s : ModelState) (target : ℕ) :
    Pres s (report_suspicious_activity s target) := by
  have h1 := pres_bump_reports s
  simp only [report_suspicious_activity]
  cases hg : get_agent_by_id
      { s with reports_this_step := s.reports_this_step + 1 } target with
  | none => exact h1
  | some a =>
    refine pres_trans h1 (pres_setAgent _ hg rfl ?_)
    intro hB
    have hA := hB a (List.get?_mem hg)
    exact ⟨hA.1, hA.2.1, hA.2.2.1, unitI_min_add hA.2.2.2.1 (by norm_num),
      hA.2.2.2.2.1, hA.2.2.2.2.2.1, hA.2.2.2.2.2.2.1, hA.2.2.2.2.2.2.2⟩

theorem reportStep_pres (r : ℕ → ℚ) (rp : ℚ) (acc : ModelState × ℕ) (nb : ℕ) :
    Pres acc.1 (reportStep r rp acc nb).1 := by
  obtain ⟨st, k⟩ := acc
  cases hg : get_agent_by_id st nb with
  | none => simp only [reportStep, hg]; exact pres_refl st
  | some ag =>
    simp only [reportStep, hg]
    split
    · split
      · exact report_suspicious_activity_pres st nb
      · exact pres_refl st
    · exact pres_refl st

theorem consider_reporting_pres {r : ℕ → ℚ} {s : ModelState} {k i : ℕ}
    {out : ModelState × ℕ} (h : consider_reporting r s k i = some out) :
    Pres s out.1 := by
  cases hn : neighborsOpt s i with
  | none => simp [consider_reporting, hn] at h
  | some nbrs =>
    cases hg : get_agent_by_id s i with
    | none => simp [consider_reporting, hn, hg] at h
    | some a =>
      cases hrp : a.reporting_propensity with
      | none => simp [consider_reporting, hn, hg, hrp] at h
      | some rp =>
        simp only [consider_reporting, hn, hg, hrp] at h
        injection h with h; subst h
        exact foldl_invariant (fun acc : ModelState × ℕ => Pres s acc.1) _ nbrs (s, k)
          (pres_refl s)
          (fun acc x _ hp => pres_trans hp (reportStep_pres r rp acc x))

theorem community_step_pres {r : ℕ → ℚ} {s : ModelState} {k i : ℕ}
    {out : ModelState × ℕ} (h : community_step r s k i = some out) :
    Pres s out.1 := by
  cases ha : abstract_step s i with
  | none => simp [community_step, ha] at h
  | some s1 =>
    cases hg : get_agent_by_id s1 i with
    | none => simp [community_step, ha, hg] at h
    | some a =>
      simp only [community_step, ha, hg] at h
      split at h
      · exact pres_trans (abstract_step_pres ha) (consider_reporting_pres h)
      · injection h with h; subst h; exact abstract_step_pres ha

/-! `intervene_agent`: characterisation and preservation. -/
theorem intervene_agent_WF (s : ModelState) (i : ℕ) (h : WF s) :
    WF (intervene_agent s i) := by
  obtain ⟨hra, hnd, hbd, hact, harr⟩ := h
  cases hg : s.agents.get? i with
  | none =>
    simp only [intervene_agent, get_agent_by_id, setAgent, hg]
    exact ⟨hra, hnd, hbd, hact, harr⟩
  | some a =>
    simp only [intervene_agent, get_agent_by_id, setAgent, hg]
    split
    case isTrue ha =>
      split
      case isTrue hc =>
        split
        case isTrue hmem =>
          refine ⟨?_, List.Nodup.erase i hnd, ?_, ?_, ?_⟩
          · intro x hx
            rcases List.mem_or_eq_of_mem_set hx with hx | rfl
            · rcases List.mem_or_eq_of_mem_set hx with hx | rfl
              · exact hra x hx
              · exact hra a (List.get?_mem hg)
            · exact hra a (List.get?_mem hg)
          · intro v hv
            have := hbd v (List.mem_of_mem_erase hv)
            simpa using this
          · intro j b hb
            rcases eq_or_ne i j with rfl | hne
            · have h1 := get?_set_self
                { a with arrest_count := a.arrest_count + 1 } hg
              have h2 := get?_set_self (l := s.agents.set i
                  { a with arrest_count := a.arrest_count + 1 })
                { a with arrest_count := a.arrest_count + 1, active := false } h1
              rw [h2] at hb
              injection hb with hb; subst hb
              constructor
              · intro hfalse; cases hfalse
              · intro hmem2
                exact absurd rfl ((List.Nodup.mem_erase_iff hnd).mp hmem2).1
            · rw [get?_set_other _ _ hne, get?_set_other _ _ hne] at hb
              rw [List.Nodup.mem_erase_iff hnd]
              have := hact j b hb
              constructor
              · intro hb2; exact ⟨hne.symm, this.mp hb2⟩
              · intro hb2; exact this.mpr hb2.2
          · intro j b hb
            rcases eq_or_ne i j with rfl | hne
            · have h1 := get?_set_self
                { a with arrest_count := a.arrest_count + 1 } hg
              have h2 := get?_set_self (l := s.agents.set i
                  { a with arrest_count := a.arrest_count + 1 })
                { a with arrest_count := a.arrest_count + 1, active := false } h1
              rw [h2] at hb
              injection hb with hb; subst hb
              exact ⟨fun _ => rfl, fun _ => hc⟩
            · rw [get?_set_other _ _ hne, get?_set_other _ _ hne] at hb
              exact harr j b hb
        case isFalse hmem =>
          exact absurd ((hact i a hg).mp ha) hmem
      case isFalse hc =>
        refine ⟨?_, hnd, ?_, ?_, ?_⟩
        · intro x hx
          rcases List.mem_or_eq_of_mem_set hx with hx | rfl
          · exact hra x hx
          · exact hra a (List.get?_mem hg)
        · intro v hv
          have := hbd v hv
          simpa using this
        · intro j b hb
          rcases eq_or_ne i j with rfl | hne
          · rw [get?_set_self _ hg] at hb
            injection hb with hb; subst hb
            exact hact i a hg
          · rw [get?_set_other _ _ hne] at hb
            exact hact j b hb
        · intro j b hb
          rcases eq_or_ne i j with rfl | hne
          · rw [get?_set_self _ hg] at hb
            injection hb with hb; subst hb
            constructor
            · intro h2; exact absurd h2 hc
            · intro hfa
              have : a.active = false := hfa
              rw [ha] at this; cases this
          · rw [get?_set_other _ _ hne] at hb
            exact harr j b hb
    case isFalse ha =>
      exact ⟨hra, hnd, hbd, hact, harr⟩

theorem intervene_agent_parts (s : ModelState) (i : ℕ) :
    AgentsRel s (intervene_agent s i) ∧
    (intervene_agent s i).running = s.running ∧
    (intervene_agent s i).metrics = s.metrics ∧
    (intervene_agent s i).recent_arrest_rate = s.recent_arrest_rate ∧
    (BndAll s → BndAll (intervene_agent s i)) := by
  cases hg : s.agents.get? i with
  | none =>
    simp only [intervene_agent, get_agent_by_id, setAgent, hg]
    exact ⟨agentsRel_refl s, by simp, by simp, by simp, fun hb => hb⟩
  | some a =>
    simp only [intervene_agent, get_agent_by_id, setAgent, hg]
    split
    case isTrue ha =>
      have hBnd : ∀ (l : List AgentState), (∀ x ∈ l, BoundedAttrs x) →
          ∀ (b : AgentState), BoundedAttrs b →
          ∀ x ∈ l.set i b, BoundedAttrs x := by
        intro l hl b hbnd x hx
        rcases List.mem_or_eq_of_mem_set hx with hx | rfl
        · exact hl x hx
        · exact hbnd
      split
      case isTrue hc =>
        have hrel : AgentsRel s { s with
            agents := (s.agents.set i { a with arrest_count := a.arrest_count + 1 }).set i
              { a with arrest_count := a.arrest_count + 1, active := false },
            nodes := s.nodes,
            arrests_this_step := s.arrests_this_step + 1,
            intervene_calls := s.intervene_calls + 1 } := by
          refine ⟨by simp [List.length_set], rfl, ?_⟩
          intro j x y hx hy
          simp only at hy
          rcases eq_or_ne i j with rfl | hne
          · rw [hg] at hx; injection hx with hx; subst hx
            have h1 := get?_set_self
              { a with arrest_count := a.arrest_count + 1 } hg
            have h2 := get?_set_self (l := s.agents.set i
                { a with arrest_count := a.arrest_count + 1 })
              { a with arrest_count := a.arrest_count + 1, active := false } h1
            rw [h2] at hy
            injection hy with hy; subst hy
            exact ⟨rfl, fun hcon => by simp at hcon, rfl, rfl, rfl, rfl, rfl⟩
          · rw [get?_set_other _ _ hne, get?_set_other _ _ hne] at hy
            rw [hx] at hy; injection hy with hy; subst hy
            exact agentMono_refl x
        split
        case isTrue hmem =>
          refine ⟨?_, by simp, by simp, by simp, ?_⟩
          · refine ⟨by simp [List.length_set], rfl, ?_⟩
            intro j x y hx hy
            exact hrel.2.2 j x y hx hy
          · intro hB x hx
            rcases List.mem_or_eq_of_mem_set hx with hx | rfl
            · rcases List.mem_or_eq_of_mem_set hx with hx | rfl
              · exact hB x hx
              · exact hB a (List.get?_mem hg)
            · exact hB a (List.get?_mem hg)
        case isFalse hmem =>
          refine ⟨?_, by simp, by simp, by simp, ?_⟩
          · refine ⟨by simp [List.length_set], rfl, ?_⟩
            intro j x y hx hy
            exact hrel.2.2 j x y hx hy
          · intro hB x hx
            rcases List.mem_or_eq_of_mem_set hx with hx | rfl
            · rcases List.mem_or_eq_of_mem_set hx with hx | rfl
              · exact hB x hx
              · exact hB a (List.get?_mem hg)
            · exact hB a (List.get?_mem hg)
      case isFalse hc =>
        refine ⟨⟨by simp [List.length_set], rfl, ?_⟩, rfl, rfl, rfl, ?_⟩
        · intro j x y hx hy
          simp only at hy
          rcases eq_or_ne i j with rfl | hne
          · rw [hg] at hx; injection hx with hx; subst hx
            rw [get?_set_self _ hg] at hy
            injection hy with hy; subst hy
            exact ⟨rfl, fun hh => hh, rfl, rfl, rfl, rfl, rfl⟩
          · rw [get?_set_other _ _ hne] at hy
            rw [hx] at hy; injection hy with hy; subst hy
            exact agentMono_refl x
        · intro hB x hx
          rcases List.mem_or_eq_of_mem_set hx with hx | rfl
          · exact hB x hx
          · exact hB a (List.get?_mem hg)
    case isFalse ha =>
      exact ⟨agentsRel_refl s, by simp, by simp, by simp, fun hb => hb⟩

theorem intervene_agent_counters_active {s : ModelState} {i : ℕ} {a : AgentState}
    (hg : get_agent_by_id s i = some a) (ha : a.active = true) :
    (intervene_agent s i).arrests_this_step = s.arrests_this_step + 1 ∧
    (intervene_agent s i).intervene_calls = s.intervene_calls + 1 := by
  unfold get_agent_by_id at hg
  simp only [intervene_agent, get_agent_by_id, setAgent, hg]
  rw [if_pos ha]
  split
  · split
    · exact ⟨rfl, rfl⟩
    · exact ⟨rfl, rfl⟩
  · exact ⟨rfl, rfl⟩

theorem intervene_agent_pres_active {s : ModelState} {i : ℕ} {a : AgentState}
    (hg : get_agent_by_id s i = some a) (ha : a.active = true) :
    Pres s (intervene_agent s i) := by
  obtain ⟨hrel, hrun, hmet, hrate, hbnd⟩ := intervene_agent_parts s i
  obtain ⟨harr, hcall⟩ := intervene_agent_counters_active hg ha
  exact ⟨hrel, hrun, hmet, hrate, fun hc => by rw [harr, hcall, hc],
    fun hw => intervene_agent_WF s i hw, hbnd⟩

/-! Preservation through the Authority monitoring loop and the full step. -/
theorem monitorStep_pres {r : ℕ → ℚ} {i : ℕ} {st : ModelState} {k : ℕ}
    {out : ModelState × ℕ} {j : ℕ}
    (h : monitorStep r i (some (st, k)) j = some out) : Pres st out.1 := by
  cases hg : get_agent_by_id st j with
  | none => simp [monitorStep, hg] at h
  | some ag =>
    cases hgi : get_agent_by_id st i with
    | none =>
      simp only [monitorStep, hg, hgi] at h
      split at h
      · cases h
      · injection h with h; subst h; exact pres_refl st
    | some selfAg =>
      cases hmc : selfAg.monitoring_capacity with
      | none =>
        simp only [monitorStep, hg, hgi, hmc] at h
        split at h
        · cases h
        · injection h with h; subst h; exact pres_refl st
      | some mc =>
        cases hgi1 : get_agent_by_id (intervene_agent st j) i with
        | none =>
          simp only [monitorStep, hg, hgi, hmc, hgi1] at h
          split at h
          · split at h
            · cases h
            · injection h with h; subst h; exact pres_refl st
          · injection h with h; subst h; exact pres_refl st
        | some selfAg1 =>
          cases hir : selfAg1.intervention_resources with
          | none =>
            simp only [monitorStep, hg, hgi, hmc, hgi1, hir] at h
            split at h
            · split at h
              · cases h
              · injection h with h; subst h; exact pres_refl st
            · injection h with h; subst h; exact pres_refl st
          | some ir =>
            simp only [monitorStep, hg, hgi, hmc, hgi1, hir] at h
            split at h
            case isTrue hcond =>
              split at h
              · injection h with h; subst h
                refine pres_trans (intervene_agent_pres_active hg hcond.2) ?_
                refine pres_setAgent _ hgi1 ?_ ?_
                · simp [skelA, hir]
                · intro hB
                  exact hB selfAg1 (List.get?_mem hgi1)
              · injection h with h; subst h; exact pres_refl st
            case isFalse =>
              injection h with h; subst h; exact pres_refl st

theorem monitor_and_intervene_pres {r : ℕ → ℚ} {s : ModelState} {k i : ℕ}
    {out : ModelState × ℕ} (h : monitor_and_intervene r s k i = some out) :
    Pres s out.1 := by
  have hfold : ∀ st1 k1,
      (List.range s.agents.length).foldl (monitorStep r i) (some (s, k)) =
        some (st1, k1) → Pres s st1 := by
    have := foldl_invariant
      (fun acc : Option (ModelState × ℕ) =>
        ∀ st1 k1, acc = some (st1, k1) → Pres s st1)
      (monitorStep r i) (List.range s.agents.length) (some (s, k))
      (fun st1 k1 heq => by
        injection heq with heq
        rw [show st1 = s from congrArg Prod.fst heq.symm]
        exact pres_refl s)
      (fun acc j _ hp st1 k1 heq => by
        cases acc with
        | none => simp [monitorStep] at heq
        | some p =>
          obtain ⟨st0, k0⟩ := p
          have h0 := hp st0 k0 rfl
          have h1 := monitorStep_pres heq
          exact pres_trans h0 h1)
    exact this
  cases hres : (List.range s.agents.length).foldl (monitorStep r i) (some (s, k)) with
  | none => simp [monitor_and_intervene, hres] at h
  | some p =>
    obtain ⟨s1, k1⟩ := p
    cases hga : get_agent_by_id s1 i with
    | none => simp [monitor_and_intervene, hres, hga] at h
    | some a2 =>
      cases hir : a2.intervention_resources with
      | none => simp [monitor_and_intervene, hres, hga, hir] at h
      | some ir =>
        simp only [monitor_and_intervene, hres, hga, hir] at h
        injection h with h; subst h
        refine pres_trans (hfold s1 k1 hres) ?_
        refine pres_setAgent _ hga ?_ ?_
        · simp [skelA, hir]
        · intro hB
          exact hB a2 (List.get?_mem hga)

theorem authority_step_pres {r : ℕ → ℚ} {s : ModelState} {k i : ℕ}
    {out : ModelState × ℕ} (h : authority_step r s k i = some out) :
    Pres s out.1 := by
  cases ha : abstract_step s i with
  | none => simp [authority_step, ha] at h
  | some s1 =>
    simp only [authority_step, ha] at h
    exact pres_trans (abstract_step_pres ha) (monitor_and_intervene_pres h)

theorem agent_step_pres {r : ℕ → ℚ} {s : ModelState} {k i : ℕ}
    {out : ModelState × ℕ} (h : agent_step r s k i = some out) : Pres s out.1 := by
  cases hg : get_agent_by_id s i with
  | none => simp [agent_step, hg] at h
  | some a =>
    cases hrole : a.role
    case Leader =>
      simp only [agent_step, hg, hrole] at h
      rw [Option.map_eq_some'] at h
      obtain ⟨t1, ht1, hout⟩ := h
      rw [← hout]
      exact leader_step_pres ht1
    case Operative =>
      simp only [agent_step, hg, hrole] at h
      exact operative_step_pres h
    case Broker =>
      simp only [agent_step, hg, hrole] at h
      rw [Option.map_eq_some'] at h
      obtain ⟨t1, ht1, hout⟩ := h
      rw [← hout]
      exact broker_step_pres ht1
    case Facilitator =>
      simp only [agent_step, hg, hrole] at h
      rw [Option.map_eq_some'] at h
      obtain ⟨t1, ht1, hout⟩ := h
      rw [← hout]
      exact facilitator_step_pres ht1
    case CommunityMember =>
      simp only [agent_step, hg, hrole] at h
      exact community_step_pres h
    case Authority =>
      simp only [agent_step, hg, hrole] at h
      exact authority_step_pres h

theorem step_agents_pres {r : ℕ → ℚ} {order : List ℕ} {s st1 : ModelState} {k0 k1 : ℕ}
    (h : step_agents r order (some (s, k0)) = some (st1, k1)) : Pres s st1 := by
  have := foldl_invariant
    (fun acc : Option (ModelState × ℕ) =>
      ∀ u m, acc = some (u, m) → Pres s u)
    (fun acc i =>
      match acc with
      | some (st, k) => agent_step r st k i
      | none => none) order (some (s, k0))
    (fun u m heq => by
      injection heq with heq
      rw [show u = s from congrArg Prod.fst heq.symm]
      exact pres_refl s)
    (fun acc j _ hp u m heq => by
      cases acc with
      | none => cases heq
      | some p =>
        obtain ⟨st0, kk⟩ := p
        have h0 := hp st0 kk rfl
        have h1 := agent_step_pres heq
        exact pres_trans h0 h1)
  exact this st1 k1 h

theorem pres_reset (s : ModelState) :
    Pres s { s with arrests_this_step := 0, reports_this_step := 0,
                    intervene_calls := 0 } :=
  ⟨⟨rfl, rfl, fun _ a b ha hb => by
      rw [ha] at hb; injection hb with hb; subst hb; exact agentMono_refl a⟩,
   rfl, rfl, rfl, fun _ => rfl, fun hw => hw, fun hb => hb⟩

theorem active_illicit_congr {s t : ModelState} (h : t.agents = s.agents) :
    active_illicit t = active_illicit s := by
  simp [active_illicit, count_active_by_role, h]

/-- Combined behavior of one engine step: the registry relation, the
counter audit, the stop-condition update of `running`, and preservation of
the structural invariant and the attribute bounds. -/
theorem step_spec {r : ℕ → ℚ} {order : List ℕ} {s t : ModelState}
    (h : step r order s = some t) :
    AgentsRel s t ∧ t.arrests_this_step = t.intervene_calls ∧
    t.running = (if active_illicit t = 0 then false else s.running) ∧
    (WF s → WF t) ∧ (BndAll s → BndAll t) := by
  simp only [step] at h
  set s0 : ModelState :=
    { s with arrests_this_step := 0, reports_this_step := 0,
             intervene_calls := 0 } with hs0
  cases hres : step_agents r order (some (s0, 0)) with
  | none => rw [hres] at h; cases h
  | some p =>
    obtain ⟨s1, k1⟩ := p
    rw [hres] at h
    injection h with h
    have hq : Pres s0 s1 := step_agents_pres hres
    have hp : Pres s s1 := pres_trans (pres_reset s) hq
    have hcnt : s1.arrests_this_step = s1.intervene_calls := hq.2.2.2.2.1 rfl
    by_cases hz : active_illicit s1 = 0
    · rw [if_pos hz] at h
      subst h
      refine ⟨⟨hp.1.1, hp.1.2.1, fun j a b ha hb => hp.1.2.2 j a b ha hb⟩,
        hcnt, ?_, fun hw => hp.2.2.2.2.2.1 hw, fun hb => hp.2.2.2.2.2.2 hb⟩
      show (false : Bool) = if active_illicit s1 = 0 then false else s.running
      rw [if_pos hz]
    · rw [if_neg hz] at h
      subst h
      refine ⟨⟨hp.1.1, hp.1.2.1, fun j a b ha hb => hp.1.2.2 j a b ha hb⟩,
        hcnt, ?_, fun hw => hp.2.2.2.2.2.1 hw, fun hb => hp.2.2.2.2.2.2 hb⟩
      show s1.running = if active_illicit s1 = 0 then false else s.running
      rw [if_neg hz]
      exact hp.2.1

/-! Policy interventions and the run-level lemmas. -/
theorem policy_map_pres (s : ModelState) (g : AgentState → AgentState)
    (hsk : ∀ a, skelA (g a) = skelA a) :
    AgentsRel s { s with agents := s.agents.map g } ∧
    (WF s → WF { s with agents := s.agents.map g }) ∧
    ((∀ a, BoundedAttrs a → BoundedAttrs (g a)) →
      BndAll s → BndAll { s with agents := s.agents.map g }) := by
  have hmap : (s.agents.map g).map skelA = s.agents.map skelA := by
    rw [List.map_map]
    exact List.map_congr_left fun a _ => hsk a
  refine ⟨⟨by simp, rfl, ?_⟩, ?_, ?_⟩
  · intro j a b ha hb
    simp only [List.get?_map, ha] at hb
    injection hb with hb; subst hb
    exact agentMono_of_skel (hsk a)
  · intro hw; exact WF_congr hmap rfl hw
  · intro hbd hB x hx
    obtain ⟨a, hal, rfl⟩ := List.mem_map.mp hx
    exact hbd a (hB a hal)

theorem apply_policy_intervention_parts (s : ModelState) (kind : String)
    (intensity : ℚ) :
    AgentsRel s (apply_policy_intervention s kind intensity) ∧
    (apply_policy_intervention s kind intensity).nodes = s.nodes ∧
    (apply_policy_intervention s kind intensity).running = s.running ∧
    (WF s → WF (apply_policy_intervention s kind intensity)) ∧
    (0 ≤ intensity →
      BndAll s → BndAll (apply_policy_intervention s kind intensity)) := by
  unfold apply_policy_intervention
  split_ifs with h1 h2 h3
  · have hp := policy_map_pres s (fun a =>
        if a.role = Role.Authority then
          { a with monitoring_capacity :=
              a.monitoring_capacity.map fun mc => min 1 (mc + intensity * (3/10)) }
        else a) ?_
    · refine ⟨hp.1, rfl, rfl, hp.2.1, fun hi hB => hp.2.2 ?_ hB⟩
      intro a hA
      by_cases hr : a.role = Role.Authority
      · rw [if_pos hr]
        refine ⟨hA.1, hA.2.1, hA.2.2.1, hA.2.2.2.1, hA.2.2.2.2.1, ?_,
          hA.2.2.2.2.2.2.1, hA.2.2.2.2.2.2.2⟩
        cases hmc : a.monitoring_capacity with
        | none => simp [UnitIOpt, hmc]
        | some v =>
          have hv : UnitI v := by
            have := hA.2.2.2.2.2.1
            rw [hmc] at this
            exact this
          simp only [hmc, Option.map_some']
          exact unitI_min_add hv (mul_nonneg hi (by norm_num))
      · rw [if_neg hr]; exact hA
    · intro a
      by_cases hr : a.role = Role.Authority
      · simp [skelA, hr]
      · simp [skelA, hr]
  · have hp := policy_map_pres s (fun a =>
        if a.role = Role.Operative ∨ a.role = Role.CommunityMember then
          let a1 := match a.economic_stress with
            | some es =>
              { a with economic_stress := some (max 0 (es - intensity * (3/10))) }
            | none => a
          { a1 with resources := a1.resources + intensity * (2/10) }
        else a) ?_
    · refine ⟨hp.1, rfl, rfl, hp.2.1, fun hi hB => hp.2.2 ?_ hB⟩
      intro a hA
      by_cases hr : a.role = Role.Operative ∨ a.role = Role.CommunityMember
      · rw [if_pos hr]
        cases hes : a.economic_stress with
        | none => exact hA
        | some es =>
          have hv : UnitI es := by
            have := hA.2.2.2.2.1
            rw [hes] at this
            exact this
          exact ⟨hA.1, hA.2.1, hA.2.2.1, hA.2.2.2.1,
            unitI_max_sub hv (mul_nonneg hi (by norm_num)),
            hA.2.2.2.2.2.1, hA.2.2.2.2.2.2.1, hA.2.2.2.2.2.2.2⟩
      · rw [if_neg hr]; exact hA
    · intro a
      by_cases hr : a.role = Role.Operative ∨ a.role = Role.CommunityMember
      · cases hes : a.economic_stress with
        | none => simp [skelA, hr, hes]
        | some es => simp [skelA, hr, hes]
      · simp [skelA, hr]
  · have hp := policy_map_pres s (fun a =>
        if a.role = Role.CommunityMember then
          { a with reporting_propensity :=
              a.reporting_propensity.map fun rp => min 1 (rp + intensity * (2/10)) }
        else a) ?_
    · refine ⟨hp.1, rfl, rfl, hp.2.1, fun hi hB => hp.2.2 ?_ hB⟩
      intro a hA
      by_cases hr : a.role = Role.CommunityMember
      · rw [if_pos hr]
        refine ⟨hA.1, hA.2.1, hA.2.2.1, hA.2.2.2.1, hA.2.2.2.2.1,
          hA.2.2.2.2.2.1, hA.2.2.2.2.2.2.1, ?_⟩
        cases hrp : a.reporting_propensity with
        | none => simp [UnitIOpt, hrp]
        | some v =>
          have hv : UnitI v := by
            have := hA.2.2.2.2.2.2.2
            rw [hrp] at this
            exact this
          simp only [hrp, Option.map_some']
          exact unitI_min_add hv (mul_nonneg hi (by norm_num))
      · rw [if_neg hr]; exact hA
    · intro a
      by_cases hr : a.role = Role.CommunityMember
      · simp [skelA, hr]
      · simp [skelA, hr]
  · exact ⟨agentsRel_refl s, rfl, rfl, fun hw => hw, fun _ hb => hb⟩

theorem exec_call_WF {s t : ModelState} {c : EngineCall} (hw : WF s)
    (h : exec_call s c = some t) : WF t := by
  cases c with
  | policy kind intensity =>
    injection h with h; subst h
    exact (apply_policy_intervention_parts s kind intensity).2.2.2.1 hw
  | report tg =>
    injection h with h; subst h
    exact (report_suspicious_activity_pres s tg).2.2.2.2.2.1 hw
  | arrest tg =>
    injection h with h; subst h
    exact intervene_agent_WF s tg hw
  | engineStep r order => exact (step_spec h).2.2.2.1 hw

theorem exec_call_Bnd {s t : ModelState} {c : EngineCall} (hb : BndAll s)
    (hok : CallOK c) (h : exec_call s c = some t) : BndAll t := by
  cases c with
  | policy kind intensity =>
    injection h with h; subst h
    exact (apply_policy_intervention_parts s kind intensity).2.2.2.2 hok hb
  | report tg =>
    injection h with h; subst h
    exact (report_suspicious_activity_pres s tg).2.2.2.2.2.2 hb
  | arrest tg =>
    injection h with h; subst h
    exact (intervene_agent_parts s tg).2.2.2.2 hb
  | engineStep r order => exact (step_spec h).2.2.2.2 hb

theorem exec_call_AgentsRel {s t : ModelState} {c : EngineCall}
    (h : exec_call s c = some t) : AgentsRel s t := by
  cases c with
  | policy kind intensity =>
    injection h with h; subst h
    exact (apply_policy_intervention_parts s kind intensity).1
  | report tg =>
    injection h with h; subst h
    exact (report_suspicious_activity_pres s tg).1
  | arrest tg =>
    injection h with h; subst h
    exact (intervene_agent_parts s tg).1
  | engineStep r order => exact (step_spec h).1

theorem illicit_mono {s t : ModelState} (h : AgentsRel s t) :
    active_illicit t ≤ active_illicit s := by
  have hcount : ∀ ρ, count_active_by_role t ρ ≤ count_active_by_role s ρ := by
    intro ρ
    unfold count_active_by_role
    rw [← List.countP_eq_length_filter, ← List.countP_eq_length_filter]
    refine countP_mono_pointwise _ s.agents t.agents h.1 ?_
    intro j a b ha hb hpb
    have hm := h.2.2 j a b ha hb
    simp only [Bool.and_eq_true, decide_eq_true_iff] at hpb ⊢
    exact ⟨hm.1.symm.trans hpb.1, hm.2.1 hpb.2⟩
  have hL := hcount Role.Leader
  have hO := hcount Role.Operative
  have hB := hcount Role.Broker
  unfold active_illicit
  omega

theorem exec_call_running_eq {s t : ModelState} {c : EngineCall}
    (hc : ∀ r order, c ≠ EngineCall.engineStep r order)
    (h : exec_call s c = some t) : t.running = s.running := by
  cases c with
  | policy kind intensity =>
    injection h with h; subst h
    exact (apply_policy_intervention_parts s kind intensity).2.2.1
  | report tg =>
    injection h with h; subst h
    exact (report_suspicious_activity_pres s tg).2.1
  | arrest tg =>
    injection h with h; subst h
    exact (intervene_agent_parts s tg).2.1
  | engineStep r order => exact absurd rfl (hc r order)

theorem exec_call_stoppedDone {s t : ModelState} {c : EngineCall}
    (h : exec_call s c = some t) (hj : StoppedDone s) : StoppedDone t := by
  have hmono := illicit_mono (exec_call_AgentsRel h)
  cases c with
  | engineStep r order =>
    intro hrun
    have hrule := (step_spec h).2.2.1
    by_cases hz : active_illicit t = 0
    · exact hz
    · rw [if_neg hz] at hrule
      rw [hrun] at hrule
      have := hj hrule.symm
      omega
  | policy kind intensity =>
    intro hrun
    injection h with h; subst h
    have hreq := (apply_policy_intervention_parts s kind intensity).2.2.1
    rw [hreq] at hrun
    have := hj hrun
    omega
  | report tg =>
    intro hrun
    injection h with h; subst h
    have hreq := (report_suspicious_activity_pres s tg).2.1
    rw [hreq] at hrun
    have := hj hrun
    omega
  | arrest tg =>
    intro hrun
    injection h with h; subst h
    have hreq := (intervene_agent_parts s tg).2.1
    rw [hreq] at hrun
    have := hj hrun
    omega

theorem run_go_none (calls : List EngineCall) :
    calls.foldl (fun acc c =>
      match acc with
      | some st => exec_call st c
      | none => none) none = none := by
  induction calls with
  | nil => rfl
  | cons c cs ih => simpa using ih

theorem run_cons (c : EngineCall) (cs : List EngineCall) (s : ModelState) :
    run (c :: cs) s =
      match exec_call s c with
      | some u => run cs u
      | none => none := by
  cases he : exec_call s c with
  | none => simp [run, List.foldl, he, run_go_none]
  | some u => simp [run, List.foldl, he]

theorem run_WF {calls : List EngineCall} :
    ∀ {s t : ModelState}, WF s → run calls s = some t → WF t := by
  induction calls with
  | nil =>
    intro s t hw h
    injection h with h; subst h; exact hw
  | cons c cs ih =>
    intro s t hw h
    rw [run_cons] at h
    cases he : exec_call s c with
    | none => rw [he] at h; cases h
    | some u => rw [he] at h; exact ih (exec_call_WF hw he) h

theorem run_Bnd {calls : List EngineCall} :
    ∀ {s t : ModelState}, BndAll s → (∀ c ∈ calls, CallOK c) →
      run calls s = some t → BndAll t := by
  induction calls with
  | nil =>
    intro s t hb _ h
    injection h with h; subst h; exact hb
  | cons c cs ih =>
    intro s t hb hok h
    rw [run_cons] at h
    cases he : exec_call s c with
    | none => rw [he] at h; cases h
    | some u =>
      rw [he] at h
      exact ih (exec_call_Bnd hb (hok c (by simp)) he)
        (fun d hd => hok d (by simp [hd])) h

theorem run_stoppedDone {calls : List EngineCall} :
    ∀ {s t : ModelState}, StoppedDone s → run calls s = some t → StoppedDone t := by
  induction calls with
  | nil =>
    intro s t hj h
    injection h with h; subst h; exact hj
  | cons c cs ih =>
    intro s t hj h
    rw [run_cons] at h
    cases he : exec_call s c with
    | none => rw [he] at h; cases h
    | some u => rw [he] at h; exact ih (exec_call_stoppedDone he hj) h

theorem run_append_one (calls : List EngineCall) (c : EngineCall) :
    ∀ (s : ModelState), run (calls ++ [c]) s =
      match run calls s with
      | some u => exec_call u c
      | none => none := by
  induction calls with
  | nil =>
    intro s
    rw [List.nil_append, run_cons]
    cases he : exec_call s c with
    | none => simp [run, he]
    | some u => simp [run, he]
  | cons d ds ih =>
    intro s
    rw [List.cons_append, run_cons, run_cons]
    cases he : exec_call s d with
    | none => simp
    | some u => simpa using ih u

/-! Totality: under the structural invariant every neighbor lookup in a
step happens on a live node, so the error branches are unreachable. -/
theorem get_of_lt {s : ModelState} {i : ℕ} (h : i < s.agents.length) :
    ∃ a, get_agent_by_id s i = some a := by
  cases hg : s.agents.get? i with
  | none => rw [List.get?_eq_none] at hg; omega
  | some a => exact ⟨a, hg⟩

theorem get_some_of_rel {s t : ModelState} (h : AgentsRel s t) {i : ℕ}
    {a : AgentState} (hg : get_agent_by_id s i = some a) :
    ∃ b, get_agent_by_id t i = some b ∧ AgentMono a b := by
  have hi : i < s.agents.length := (List.get?_eq_some.mp hg).1
  have hi2 : i < t.agents.length := by rw [h.1]; exact hi
  cases hb : t.agents.get? i with
  | none => rw [List.get?_eq_none] at hb; omega
  | some b => exact ⟨b, hb, h.2.2 i a b hg hb⟩

theorem update_social_capital_total {s : ModelState} {i : ℕ} {a : AgentState}
    (hg : get_agent_by_id s i = some a) (hmem : i ∈ s.nodes) :
    ∃ t, update_social_capital s i = some t := by
  unfold update_social_capital neighborsOpt
  rw [if_pos hmem, hg]
  dsimp only
  split
  · split
    · exact ⟨_, rfl⟩
    · exact ⟨_, rfl⟩
  · exact ⟨_, rfl⟩

theorem adjust_risk_total {s : ModelState} {i : ℕ} {a : AgentState}
    (hg : get_agent_by_id s i = some a) :
    ∃ t, adjust_risk_from_environment s i = some t := by
  unfold adjust_risk_from_environment
  rw [hg]
  dsimp only
  split
  · exact ⟨_, rfl⟩
  · exact ⟨_, rfl⟩

theorem abstract_step_total {s : ModelState} {i : ℕ} {a : AgentState}
    (hw : WF s) (hg : get_agent_by_id s i = some a) :
    ∃ t, abstract_step s i = some t := by
  unfold abstract_step
  rw [hg]
  dsimp only
  split
  case isTrue hact =>
    have hmem : i ∈ s.nodes := (hw.2.2.2.1 i a hg).mp hact
    obtain ⟨t1, ht1⟩ := update_social_capital_total hg hmem
    rw [ht1]
    dsimp only
    obtain ⟨b, hb, _⟩ := get_some_of_rel (update_social_capital_pres ht1).1 hg
    exact adjust_risk_total hb
  case isFalse => exact ⟨_, rfl⟩

theorem distribute_resources_total {s : ModelState} {i : ℕ} {a : AgentState}
    (hg : get_agent_by_id s i = some a) (hmem : i ∈ s.nodes) :
    ∃ t, distribute_resources s i = some t := by
  unfold distribute_resources neighborsOpt
  rw [if_pos hmem, hg]
  dsimp only
  split
  · exact ⟨_, rfl⟩
  · exact ⟨_, rfl⟩

theorem leader_step_total {s : ModelState} {i : ℕ} {a : AgentState}
    (hw : WF s) (hg : get_agent_by_id s i = some a) :
    ∃ t, leader_step s i = some t := by
  unfold leader_step
  obtain ⟨s1, hs1⟩ := abstract_step_total hw hg
  rw [hs1]
  dsimp only
  have hp := abstract_step_pres hs1
  have hw1 : WF s1 := hp.2.2.2.2.2.1 hw
  obtain ⟨b, hb, _⟩ := get_some_of_rel hp.1 hg
  rw [hb]
  dsimp only
  split
  case isTrue hact =>
    exact distribute_resources_total hb ((hw1.2.2.2.1 i b hb).mp hact)
  case isFalse => exact ⟨_, rfl⟩

theorem perform_abstract_activity_total {r : ℕ → ℚ} {s : ModelState} {k i : ℕ}
    {a : AgentState} (hg : get_agent_by_id s i = some a) :
    ∃ out, perform_abstract_activity r s k i = some out := by
  unfold perform_abstract_activity
  rw [hg]
  dsimp only
  split
  · split
    · exact ⟨_, rfl⟩
    · exact ⟨_, rfl⟩
  · exact ⟨_, rfl⟩

theorem operative_step_total {r : ℕ → ℚ} {s : ModelState} {k i : ℕ}
    {a : AgentState} (hw : WF s) (hg : get_agent_by_id s i = some a)
    (hrole : a.role = Role.Operative) :
    ∃ out, operative_step r s k i = some out := by
  unfold operative_step
  obtain ⟨s1, hs1⟩ := abstract_step_total hw hg
  rw [hs1]
  dsimp only
  have hp := abstract_step_pres hs1
  have hw1 : WF s1 := hp.2.2.2.2.2.1 hw
  obtain ⟨b, hb, hm⟩ := get_some_of_rel hp.1 hg
  rw [hb]
  dsimp only
  split
  case isTrue hact =>
    have hes : b.economic_stress.isSome = true :=
      (hw1.1 b (List.get?_mem hb)).1 (hm.1.trans hrole)
    obtain ⟨es, hes2⟩ := Option.isSome_iff_exists.mp hes
    rw [hes2]
    dsimp only
    by_cases hc : es > 7 / 10
    · rw [if_pos hc]
      have hset := get?_set_self
        { b with risk_tolerance := min 1 (b.risk_tolerance + 5 / 100),
                 economic_stress := some es } hb
      exact perform_abstract_activity_total hset
    · rw [if_neg hc]
      exact perform_abstract_activity_total hb
  case isFalse => exact ⟨_, rfl⟩

theorem mediate_connections_total {s : ModelState} {i : ℕ} {a : AgentState}
    (hg : get_agent_by_id s i = some a) (hmem : i ∈ s.nodes) :
    ∃ t, mediate_connections s i = some t := by
  unfold mediate_connections neighborsOpt
  rw [if_pos hmem, hg]
  dsimp only
  split
  · exact ⟨_, rfl⟩
  · exact ⟨_, rfl⟩

theorem broker_step_total {s : ModelState} {i : ℕ} {a : AgentState}
    (hw : WF s) (hg : get_agent_by_id s i = some a) :
    ∃ t, broker_step s i = some t := by
  unfold broker_step
  obtain ⟨s1, hs1⟩ := abstract_step_total hw hg
  rw [hs1]
  dsimp only
  have hp := abstract_step_pres hs1
  have hw1 : WF s1 := hp.2.2.2.2.2.1 hw
  obtain ⟨b, hb, _⟩ := get_some_of_rel hp.1 hg
  rw [hb]
  dsimp only
  split
  case isTrue hact =>
    exact mediate_connections_total hb ((hw1.2.2.2.1 i b hb).mp hact)
  case isFalse => exact ⟨_, rfl⟩

theorem maintain_legitimacy_total {s : ModelState} {i : ℕ} {a : AgentState}
    (hg : get_agent_by_id s i = some a) :
    ∃ t, maintain_legitimacy s i = some t := by
  unfold maintain_legitimacy
  rw [hg]
  dsimp only
  split
  · exact ⟨_, rfl⟩
  · exact ⟨_, rfl⟩

theorem facilitator_step_total {s : ModelState} {i : ℕ} {a : AgentState}
    (hw : WF s) (hg : get_agent_by_id s i = some a) :
    ∃ t, facilitator_step s i = some t := by
  unfold facilitator_step
  obtain ⟨s1, hs1⟩ := abstract_step_total hw hg
  rw [hs1]
  dsimp only
  have hp := abstract_step_pres hs1
  obtain ⟨b, hb, _⟩ := get_some_of_rel hp.1 hg
  rw [hb]
  dsimp only
  split
  · exact maintain_legitimacy_total hb
  · exact ⟨_, rfl⟩

theorem consider_reporting_total {r : ℕ → ℚ} {s : ModelState} {k i : ℕ}
    {a : AgentState} (hg : get_agent_by_id s i = some a) (hmem : i ∈ s.nodes)
    (hrp : a.reporting_propensity.isSome = true) :
    ∃ out, consider_reporting r s k i = some out := by
  obtain ⟨rp, hrp2⟩ := Option.isSome_iff_exists.mp hrp
  unfold consider_reporting neighborsOpt
  rw [if_pos hmem, hg]
  dsimp only
  rw [hrp2]
  dsimp only
  exact ⟨_, rfl⟩

theorem community_step_total {r : ℕ → ℚ} {s : ModelState} {k i : ℕ}
    {a : AgentState} (hw : WF s) (hg : get_agent_by_id s i = some a)
    (hrole : a.role = Role.CommunityMember) :
    ∃ out, community_step r s k i = some out := by
  unfold community_step
  obtain ⟨s1, hs1⟩ := abstract_step_total hw hg
  rw [hs1]
  dsimp only
  have hp := abstract_step_pres hs1
  have hw1 : WF s1 := hp.2.2.2.2.2.1 hw
  obtain ⟨b, hb, hm⟩ := get_some_of_rel hp.1 hg
  rw [hb]
  dsimp only
  split
  case isTrue hact =>
    have hrp : b.reporting_propensity.isSome = true :=
      (hw1.1 b (List.get?_mem hb)).2.2 (hm.1.trans hrole)
    exact consider_reporting_total hb ((hw1.2.2.2.1 i b hb).mp hact) hrp
  case isFalse => exact ⟨_, rfl⟩

theorem monitorStep_total {r : ℕ → ℚ} {i : ℕ} {st : ModelState} {k j : ℕ}
    (hw : WF st) (hj : j < st.agents.length)
    (hb : ∃ b, get_agent_by_id st i = some b ∧ b.role = Role.Authority) :
    ∃ out, monitorStep r i (some (st, k)) j = some out := by
  obtain ⟨b, hbi, hrole⟩ := hb
  obtain ⟨ag, hag⟩ := get_of_lt hj
  unfold monitorStep
  dsimp only
  rw [hag]
  dsimp only
  split
  case isTrue hcond =>
    rw [hbi]
    dsimp only
    have hmc : b.monitoring_capacity.isSome = true :=
      ((hw.1 b (List.get?_mem hbi)).2.1 hrole).1
    obtain ⟨mc, hmc2⟩ := Option.isSome_iff_exists.mp hmc
    rw [hmc2]
    dsimp only
    split
    · have hrel := (intervene_agent_parts st j).1
      obtain ⟨b1, hb1, hm1⟩ := get_some_of_rel hrel hbi
      rw [hb1]
      dsimp only
      have hw1 : WF (intervene_agent st j) := intervene_agent_WF st j hw
      have hir : b1.intervention_resources.isSome = true :=
        ((hw1.1 b1 (List.get?_mem hb1)).2.1 (hm1.1.trans hrole)).2
      obtain ⟨ir, hir2⟩ := Option.isSome_iff_exists.mp hir
      rw [hir2]
      exact ⟨_, rfl⟩
    · exact ⟨_, rfl⟩
  case isFalse => exact ⟨_, rfl⟩

theorem monitor_and_intervene_total {r : ℕ → ℚ} {s : ModelState} {k i : ℕ}
    (hw : WF s)
    (hb : ∃ b, get_agent_by_id s i = some b ∧ b.role = Role.Authority) :
    ∃ out, monitor_and_intervene r s k i = some out := by
  have hinv := foldl_invariant
    (fun acc : Option (ModelState × ℕ) =>
      ∃ st1 k1, acc = some (st1, k1) ∧ WF st1 ∧
        st1.agents.length = s.agents.length ∧
        ∃ b, get_agent_by_id st1 i = some b ∧ b.role = Role.Authority)
    (monitorStep r i) (List.range s.agents.length) (some (s, k))
    ⟨s, k, rfl, hw, rfl, hb⟩
    (fun acc j hjmem hp => by
      obtain ⟨st1, k1, rfl, hw1, hlen1, b1, hb1, hrole1⟩ := hp
      have hj : j < st1.agents.length := by
        rw [hlen1]; exact List.mem_range.mp hjmem
      obtain ⟨out, hout⟩ := monitorStep_total hw1 hj ⟨b1, hb1, hrole1⟩
      have hpres := monitorStep_pres hout
      obtain ⟨b2, hb2, hm2⟩ := get_some_of_rel hpres.1 hb1
      refine ⟨out.1, out.2, by rw [hout], hpres.2.2.2.2.2.1 hw1, ?_,
        b2, hb2, hm2.1.trans hrole1⟩
      rw [hpres.1.1, hlen1])
  obtain ⟨st1, k1, hres, hw1, _, b1, hb1, hrole1⟩ := hinv
  unfold monitor_and_intervene
  rw [hres]
  dsimp only
  rw [hb1]
  dsimp only
  have hir : b1.intervention_resources.isSome = true :=
    ((hw1.1 b1 (List.get?_mem hb1)).2.1 hrole1).2
  obtain ⟨ir, hir2⟩ := Option.isSome_iff_exists.mp hir
  rw [hir2]
  exact ⟨_, rfl⟩

theorem authority_step_total {r : ℕ → ℚ} {s : ModelState} {k i : ℕ}
    {a : AgentState} (hw : WF s) (hg : get_agent_by_id s i = some a)
    (hrole : a.role = Role.Authority) :
    ∃ out, authority_step r s k i = some out := by
  unfold authority_step
  obtain ⟨s1, hs1⟩ := abstract_step_total hw hg
  rw [hs1]
  dsimp only
  have hp := abstract_step_pres hs1
  have hw1 : WF s1 := hp.2.2.2.2.2.1 hw
  obtain ⟨b, hb, hm⟩ := get_some_of_rel hp.1 hg
  exact monitor_and_intervene_total hw1 ⟨b, hb, hm.1.trans hrole⟩

theorem agent_step_total {r : ℕ → ℚ} {s : ModelState} {k i : ℕ}
    (hw : WF s) (hi : i < s.agents.length) :
    ∃ out, agent_step r s k i = some out := by
  obtain ⟨a, hg⟩ := get_of_lt hi
  unfold agent_step
  rw [hg]
  dsimp only
  cases hrole : a.role
  case Leader =>
    obtain ⟨t, ht⟩ := leader_step_total hw hg
    rw [ht]
    exact ⟨_, rfl⟩
  case Operative => exact operative_step_total hw hg hrole
  case Broker =>
    obtain ⟨t, ht⟩ := broker_step_total hw hg
    rw [ht]
    exact ⟨_, rfl⟩
  case Facilitator =>
    obtain ⟨t, ht⟩ := facilitator_step_total hw hg
    rw [ht]
    exact ⟨_, rfl⟩
  case CommunityMember => exact community_step_total hw hg hrole
  case Authority => exact authority_step_total hw hg hrole

theorem step_agents_total {r : ℕ → ℚ} {order : List ℕ} {s : ModelState} {k : ℕ}
    (hw : WF s) (horder : ∀ i ∈ order, i < s.agents.length) :
    ∃ st1 k1, step_agents r order (some (s, k)) = some (st1, k1) := by
  have hinv := foldl_invariant
    (fun acc : Option (ModelState × ℕ) =>
      ∃ st1 k1, acc = some (st1, k1) ∧ WF st1 ∧
        st1.agents.length = s.agents.length)
    (fun acc i =>
      match acc with
      | some (st, k) => agent_step r st k i
      | none => none) order (some (s, k))
    ⟨s, k, rfl, hw, rfl⟩
    (fun acc i himem hp => by
      obtain ⟨st1, k1, rfl, hw1, hlen1⟩ := hp
      have hi : i < st1.agents.length := by
        rw [hlen1]; exact horder i himem
      obtain ⟨out, hout⟩ := agent_step_total hw1 hi
      have hpres := agent_step_pres hout
      exact ⟨out.1, out.2, by dsimp only; rw [hout], hpres.2.2.2.2.2.1 hw1,
        hpres.1.1.trans hlen1⟩)
  obtain ⟨st1, k1, hres, _, _⟩ := hinv
  exact ⟨st1, k1, hres⟩

/-- Progress: from a well-formed state, one engine step never hits the
missing-node (or missing-attribute) error branch, whatever the draws and
whatever activation order over valid ids the shuffle produced. -/
theorem step_total {r : ℕ → ℚ} {order : List ℕ} {s : ModelState}
    (hw : WF s) (horder : ∀ i ∈ order, i < s.agents.length) :
    ∃ t, step r order s = some t := by
  unfold step
  dsimp only
  have hw0 : WF { s with arrests_this_step := 0, reports_this_step := 0, intervene_calls := 0 } := hw
  obtain ⟨st1, k1, hres⟩ := step_agents_total (r := r) (k := 0) hw0 horder
  rw [hres]
  dsimp only
  exact ⟨_, rfl⟩

theorem initOK_WF {s : ModelState} (h : InitOK s) : WF s := by
  obtain ⟨hnodes, hag, hrun, -⟩ := h
  refine ⟨fun a ha => (hag a ha).1, ?_, ?_, ?_, ?_⟩
  · rw [hnodes]; exact List.nodup_range _
  · intro v hv; rw [hnodes] at hv; exact List.mem_range.mp hv
  · intro i a hga
    have hmem : i < s.agents.length := (List.get?_eq_some.mp hga).1
    rw [(hag a (List.get?_mem hga)).2.1, hnodes]
    simp [List.mem_range, hmem]
  · intro i a hga
    rw [(hag a (List.get?_mem hga)).2.1, (hag a (List.get?_mem hga)).2.2]
    simp

/-! Claim C10. -/

/-- C10: every neighbor lookup during a step runs while the querying
agent's id is a live node, because each lookup site is guarded by the
`active` flag and `active` implies node membership; in this total
embedding, where lookups return an `Option`, the whole step therefore
never returns the error value from a well-formed state, for every draw
stream and every activation order over valid ids. -/
theorem c10_step_never_errors (r : ℕ → ℚ) (order : List ℕ) (s : ModelState)
    (hw : WF s) (horder : ∀ i ∈ order, i < s.agents.length) :
    (step r order s).isSome = true := by
  obtain ⟨t, ht⟩ := step_total hw horder
  rw [ht]
  rfl

/-! Claim C5. -/

/-- C5: all clamped attributes except `resources` — `legitimacy`,
`risk_tolerance`, `social_capital`, `detection_exposure`, and the
role-specific `economic_stress`, `monitoring_capacity`,
`reporting_propensity` and `vulnerability` — stay within [0,1] after every
engine step and after every intervention (of nonnegative intensity) or
report, given they start within [0,1]. -/
theorem c5_clamped_attributes (calls : List EngineCall) (s0 s : ModelState)
    (hb : BndAll s0) (hok : ∀ c ∈ calls, CallOK c)
    (hrun : run calls s0 = some s) : ∀ a ∈ s.agents, BoundedAttrs a :=
  run_Bnd hb hok hrun

/-! Claim C4. -/

/-- C4: calling `intervene_agent` on an active agent increments its
arrest count and the step arrest counter by exactly one (the ghost call
counter too); when the count reaches 2 the agent is deactivated and its
node leaves the network, otherwise it stays active with the network
untouched. A call on an inactive id changes nothing but the ghost
counter. At the end of every step `arrests_this_step` (a natural number,
hence nonnegative) equals the number of `intervene_agent` invocations made
during that step. -/
theorem c4_intervene_agent_spec :
    (∀ (s : ModelState) (i : ℕ) (a : AgentState), WF s →
      get_agent_by_id s i = some a → a.active = true →
      ∃ a1, get_agent_by_id (intervene_agent s i) i = some a1 ∧
        a1.arrest_count = a.arrest_count + 1 ∧
        (intervene_agent s i).arrests_this_step = s.arrests_this_step + 1 ∧
        (intervene_agent s i).intervene_calls = s.intervene_calls + 1 ∧
        (2 ≤ a.arrest_count + 1 →
          a1.active = false ∧ i ∉ (intervene_agent s i).nodes) ∧
        (a.arrest_count + 1 < 2 →
          a1.active = true ∧ (intervene_agent s i).nodes = s.nodes)) ∧
    (∀ (s : ModelState) (i : ℕ) (a : AgentState),
      get_agent_by_id s i = some a → a.active = false →
      intervene_agent s i =
        { s with intervene_calls := s.intervene_calls + 1 }) ∧
    (∀ (r : ℕ → ℚ) (order : List ℕ) (s t : ModelState),
      step r order s = some t →
      0 ≤ t.arrests_this_step ∧ t.arrests_this_step = t.intervene_calls) := by
  refine ⟨?_, ?_, ?_⟩
  · intro s i a hw hg hact
    have hg' : s.agents.get? i = some a := hg
    simp only [intervene_agent, get_agent_by_id, setAgent, hg']
    rw [if_pos hact]
    by_cases hc : 2 ≤ a.arrest_count + 1
    · rw [if_pos hc]
      have h1 := get?_set_self { a with arrest_count := a.arrest_count + 1 } hg'
      have h2 := get?_set_self (l := s.agents.set i
          { a with arrest_count := a.arrest_count + 1 })
        { a with arrest_count := a.arrest_count + 1, active := false } h1
      have hmem : i ∈ s.nodes := (hw.2.2.2.1 i a hg').mp hact
      rw [if_pos hmem]
      refine ⟨{ a with arrest_count := a.arrest_count + 1, active := false },
        h2, rfl, rfl, rfl, fun _ => ⟨rfl, ?_⟩, fun hlt => absurd hc (by omega)⟩
      intro habs
      exact ((List.Nodup.mem_erase_iff hw.2.1).mp habs).1 rfl
    · rw [if_neg hc]
      have h1 := get?_set_self { a with arrest_count := a.arrest_count + 1 } hg'
      exact ⟨{ a with arrest_count := a.arrest_count + 1 }, h1, rfl, rfl, rfl,
        fun h2 => absurd h2 hc, fun _ => ⟨hact, rfl⟩⟩
  · intro s i a hg hact
    have hg' : s.agents.get? i = some a := hg
    simp only [intervene_agent, get_agent_by_id, setAgent, hg']
    rw [if_neg (by rw [hact]; exact Bool.false_ne_true)]
  · intro r order s t h
    exact ⟨Nat.zero_le _, (step_spec h).2.1⟩

/-! Claim C8. -/

/-- C8: `apply_policy_intervention('monitoring', intensity)` raises every
Authority's `monitoring_capacity` by `intensity*0.3` capped at 1.0 and
changes nothing else (non-Authority agents and every other engine field are
untouched); with intensity 1.0 an Authority at 0.5 lands exactly on 0.8;
and any application leaves an Authority's capacity at most 1.0, so repeated
applications never push it above 1.0. -/
theorem c8_monitoring_spec (s : ModelState) (intensity : ℚ) :
    (∀ i a, s.agents.get? i = some a →
      (apply_policy_intervention s "monitoring" intensity).agents.get? i =
        some (if a.role = Role.Authority then
          { a with monitoring_capacity :=
              a.monitoring_capacity.map fun mc => min 1 (mc + intensity * (3/10)) }
        else a)) ∧
    ((apply_policy_intervention s "monitoring" intensity).nodes = s.nodes ∧
     (apply_policy_intervention s "monitoring" intensity).running = s.running ∧
     (apply_policy_intervention s "monitoring" intensity).arrests_this_step =
       s.arrests_this_step ∧
     (apply_policy_intervention s "monitoring" intensity).reports_this_step =
       s.reports_this_step ∧
     (apply_policy_intervention s "monitoring" intensity).metrics = s.metrics) ∧
    (∀ i a, s.agents.get? i = some a → a.role = Role.Authority →
      a.monitoring_capacity = some (1/2) → intensity = 1 →
      ∃ b, (apply_policy_intervention s "monitoring" intensity).agents.get? i =
        some b ∧ b.monitoring_capacity = some (4/5)) ∧
    (∀ i a b w, s.agents.get? i = some a → a.role = Role.Authority →
      (apply_policy_intervention s "monitoring" intensity).agents.get? i = some b →
      b.monitoring_capacity = some w → w ≤ 1) := by
  have hpt : ∀ i a, s.agents.get? i = some a →
      (apply_policy_intervention s "monitoring" intensity).agents.get? i =
        some (if a.role = Role.Authority then
          { a with monitoring_capacity :=
              a.monitoring_capacity.map fun mc => min 1 (mc + intensity * (3/10)) }
        else a) := by
    intro i a hg
    unfold apply_policy_intervention
    rw [if_pos rfl]
    dsimp only
    rw [List.get?_map, hg]
    rfl
  refine ⟨hpt, ?_, ?_, ?_⟩
  · unfold apply_policy_intervention
    rw [if_pos rfl]
    exact ⟨rfl, rfl, rfl, rfl, rfl⟩
  · intro i a hg hrole hmc hint
    refine ⟨_, hpt i a hg, ?_⟩
    rw [if_pos hrole]
    simp only [hmc, hint, Option.map_some']
    norm_num
  · intro i a b w hg hrole hgb hw
    rw [hpt i a hg, if_pos hrole] at hgb
    injection hgb with hgb
    subst hgb
    simp only at hw
    obtain ⟨v, _, hvw⟩ := Option.map_eq_some'.mp hw
    rw [← hvw]
    exact min_le_left _ _

/-- C7 counterexample: on a well-formed engine whose only agent is a
CommunityMember, the claim fails at intensity 1 — a CommunityMember has no
`economic_stress` attribute to lower (the `hasattr` guard in the source
skips it). -/
theorem c7_counterexample :
    WF exC7 ∧ BndAll exC7 ∧ ¬ EconomicSupportClaim exC7 1 := by
  refine ⟨by with_unfolding_all decide, by with_unfolding_all decide, ?_⟩
  intro h
  obtain ⟨es, hes, -⟩ := h 0 exCommunity rfl (Or.inr rfl)
  cases hes

/-- C7 amended: a single `economic_support` call lowers `economic_stress`
by `intensity*0.3` floored at 0 for every agent among the
Operatives/CommunityMembers that carries the attribute (every Operative
does; CommunityMembers carry none, so only their resources move), raises
`resources` by `intensity*0.2` for every Operative and CommunityMember,
and changes nothing else — no other agent, no other attribute, and no
other engine field. -/
theorem c7_economic_support_amended (s : ModelState) (intensity : ℚ) :
    (∀ i a, s.agents.get? i = some a →
      (apply_policy_intervention s "economic_support" intensity).agents.get? i =
        some (if a.role = Role.Operative ∨ a.role = Role.CommunityMember then
          { a with
              economic_stress :=
                a.economic_stress.map fun es => max 0 (es - intensity * (3/10)),
              resources := a.resources + intensity * (2/10) }
        else a)) ∧
    ((apply_policy_intervention s "economic_support" intensity).nodes = s.nodes ∧
     (apply_policy_intervention s "economic_support" intensity).running =
       s.running ∧
     (apply_policy_intervention s "economic_support" intensity).arrests_this_step =
       s.arrests_this_step ∧
     (apply_policy_intervention s "economic_support" intensity).reports_this_step =
       s.reports_this_step ∧
     (apply_policy_intervention s "economic_support" intensity).metrics =
       s.metrics) := by
  constructor
  · intro i a hg
    unfold apply_policy_intervention
    rw [if_neg (by decide), if_pos rfl]
    dsimp only
    rw [List.get?_map, hg]
    simp only [Option.map_some']
    by_cases hrole : a.role = Role.Operative ∨ a.role = Role.CommunityMember
    · rw [if_pos hrole, if_pos hrole]
      cases hes : a.economic_stress with
      | none => simp [hes]
      | some es => simp [hes]
    · rw [if_neg hrole, if_neg hrole]
  · unfold apply_policy_intervention
    rw [if_neg (by decide), if_pos rfl]
    exact ⟨rfl, rfl, rfl, rfl, rfl⟩

/-! Claim C9. -/
theorem distStep_conserve (i : ℕ) (t0 : ℚ) (st : ModelState) (nb : ℕ)
    (hi : i < st.agents.length) :
    total_resources (distStep i t0 st nb) = total_resources st ∧
    (distStep i t0 st nb).agents.length = st.agents.length := by
  cases hg : get_agent_by_id st nb with
  | none => simp [distStep, hg]
  | some ag =>
    simp only [distStep, hg]
    split
    case isTrue hrole =>
      have hg' : st.agents.get? nb = some ag := hg
      have hsum1 : ((st.agents.set nb
          { ag with resources := ag.resources + t0 }).map (·.resources)).sum =
          (st.agents.map (·.resources)).sum + t0 := by
        rw [sum_map_set (·.resources) st.agents nb ag _ hg']
        dsimp only
        ring
      cases hgi : get_agent_by_id
          (setAgent st nb { ag with resources := ag.resources + t0 }) i with
      | none =>
        have h2 : (setAgent st nb
            { ag with resources := ag.resources + t0 }).agents.get? i = none := hgi
        simp only [setAgent] at h2
        rw [List.get?_eq_none, List.length_set] at h2
        omega
      | some selfAg =>
        have hgi' : (st.agents.set nb
            { ag with resources := ag.resources + t0 }).get? i =
            some selfAg := hgi
        constructor
        · show ((((st.agents.set nb { ag with resources := ag.resources + t0 }).set i
              { selfAg with resources := selfAg.resources - t0 })).map
                (·.resources)).sum = (st.agents.map (·.resources)).sum
          rw [sum_map_set (·.resources) _ i selfAg _ hgi']
          rw [hsum1]
          dsimp only
          ring
        · show ((st.agents.set nb _).set i _).length = st.agents.length
          rw [List.length_set, List.length_set]
    case isFalse => exact ⟨rfl, rfl⟩

/-- C9: `distribute_resources` conserves the registry-wide sum of
`resources` in exact arithmetic — each transfer credits a neighbor and
debits the Leader by the same amount. -/
theorem c9_distribute_conserves_total (s t : ModelState) (i : ℕ)
    (h : distribute_resources s i = some t) :
    total_resources t = total_resources s := by
  cases hn : neighborsOpt s i with
  | none => simp [distribute_resources, hn] at h
  | some nbrs =>
    cases hg : get_agent_by_id s i with
    | none => simp [distribute_resources, hn, hg] at h
    | some a =>
      simp only [distribute_resources, hn, hg] at h
      split at h
      · injection h with h; subst h
        have hi : i < s.agents.length := (List.get?_eq_some.mp hg).1
        have := foldl_invariant
          (fun st => total_resources st = total_resources s ∧
            st.agents.length = s.agents.length)
          (distStep i ((a.resources * (1/10)) / (nbrs.length : ℚ))) nbrs s
          ⟨rfl, rfl⟩
          (fun st nb _ hp => by
            have hi2 : i < st.agents.length := by rw [hp.2]; exact hi
            obtain ⟨hc, hl⟩ := distStep_conserve i _ st nb hi2
            exact ⟨hc.trans hp.1, hl.trans hp.2⟩)
        exact this.1
      · injection h with h; subst h; rfl

/-! Claim C3. -/
theorem filter_length_add {α : Type _} (p : α → Bool) (l : List α) :
    (l.filter p).length + (l.filter (fun a => !p a)).length = l.length := by
  induction l with
  | nil => rfl
  | cons x xs ih => by_cases h : p x <;> simp [List.filter_cons, h] <;> omega

theorem length_filter_range_get {α : Type _} (p : α → Bool) :
    ∀ (l : List α),
      ((List.range l.length).filter
        (fun i => ((l.get? i).map p).getD false)).length = (l.filter p).length := by
  intro l
  induction l with
  | nil => rfl
  | cons x xs ih =>
    rw [List.length_cons, List.range_succ_eq_map, List.filter_cons, List.filter_cons]
    have hmap : (List.filter (fun i => (((x :: xs).get? i).map p).getD false)
        (List.map Nat.succ (List.range xs.length))) =
        List.map Nat.succ (List.filter (fun i => ((xs.get? i).map p).getD false)
          (List.range xs.length)) := by
      rw [List.filter_map]
      congr 1
    have hhead : (((x :: xs).get? 0).map p).getD false = p x := by
      rw [List.get?_cons_zero]; rfl
    rw [hhead]
    by_cases hx : p x = true
    · rw [if_pos hx, if_pos hx, List.length_cons, List.length_cons, hmap,
        List.length_map, ih]
    · rw [if_neg hx, if_neg hx, hmap, List.length_map, ih]

theorem nodes_length_eq {s : ModelState} (hw : WF s) :
    s.nodes.length = (s.agents.filter (·.active)).length := by
  have hperm : s.nodes.Perm
      ((List.range s.agents.length).filter (fun i => decide (i ∈ s.nodes))) := by
    refine (List.perm_ext_iff_of_nodup hw.2.1
      (List.Nodup.filter _ (List.nodup_range _))).mpr ?_
    intro v
    rw [List.mem_filter, List.mem_range]
    constructor
    · intro hv; exact ⟨hw.2.2.1 v hv, by simpa using hv⟩
    · intro hv; simpa using hv.2
  have hcongr : (List.range s.agents.length).filter
      (fun i => decide (i ∈ s.nodes)) =
      (List.range s.agents.length).filter
        (fun i => ((s.agents.get? i).map (·.active)).getD false) := by
    refine List.filter_congr ?_
    intro i hi
    rw [List.mem_range] at hi
    obtain ⟨a, hga⟩ := get_of_lt (s := s) hi
    have hga' : s.agents.get? i = some a := hga
    have hiff := hw.2.2.2.1 i a hga'
    rw [hga']
    by_cases hmem : i ∈ s.nodes
    · simp [hmem, hiff.mpr hmem]
    · have : ¬ a.active = true := fun hx => hmem (hiff.mp hx)
      simp [hmem, Bool.eq_false_iff.mpr this]
  rw [hperm.length_eq, hcongr, length_filter_range_get (·.active) s.agents]

/-- C3: at every reachable state boundary, `arrest_count >= 2`,
`active = false`, and absence of the agent's id from the network's node set
are pairwise equivalent for every agent; hence the node set is exactly the
ids of active agents and the live node count plus the deactivated-agent
count equals the fixed total agent count. -/
theorem c3_arrest_active_network_invariant (calls : List EngineCall)
    (s0 s : ModelState) (hinit : InitOK s0) (hrun : run calls s0 = some s) :
    (∀ i a, s.agents.get? i = some a →
      ((2 ≤ a.arrest_count ↔ a.active = false) ∧
       (a.active = false ↔ i ∉ s.nodes))) ∧
    s.nodes.length + (s.agents.filter (fun a => !a.active)).length =
      s.agents.length := by
  have hw : WF s := run_WF (initOK_WF hinit) hrun
  constructor
  · intro i a hg
    refine ⟨hw.2.2.2.2 i a hg, ?_⟩
    have hiff := hw.2.2.2.1 i a hg
    constructor
    · intro hfa hmem
      have := hiff.mpr hmem
      rw [hfa] at this
      cases this
    · intro hnm
      cases ha : a.active with
      | false => rfl
      | true => exact absurd (hiff.mp ha) hnm
  · rw [nodes_length_eq hw]
    exact filter_length_add (·.active) s.agents

/-! Claim C6. -/
theorem exec_call_running_false {s t : ModelState} {c : EngineCall}
    (h : exec_call s c = some t) (hr : s.running = false) : t.running = false := by
  cases c with
  | policy kind intensity =>
    injection h with h; subst h
    rw [(apply_policy_intervention_parts s kind intensity).2.2.1, hr]
  | report tg =>
    injection h with h; subst h
    rw [(report_suspicious_activity_pres s tg).2.1, hr]
  | arrest tg =>
    injection h with h; subst h
    rw [(intervene_agent_parts s tg).2.1, hr]
  | engineStep r order =>
    rw [(step_spec h).2.2.1]
    by_cases hz : active_illicit t = 0
    · rw [if_pos hz]
    · rw [if_neg hz, hr]

theorem run_running_false {calls : List EngineCall} :
    ∀ {s t : ModelState}, run calls s = some t → s.running = false →
      t.running = false := by
  induction calls with
  | nil =>
    intro s t h hr
    injection h with h; subst h; exact hr
  | cons c cs ih =>
    intro s t h hr
    rw [run_cons] at h
    cases he : exec_call s c with
    | none => rw [he] at h; cases h
    | some u => rw [he] at h; exact ih h (exec_call_running_false he hr)

/-- C6: after any run from a fresh engine that ends with a `step` call, the
`running` flag is true exactly when some illicit-role agent is still
active — so the flag turns false exactly at the end of the first step whose
active Leader+Operative+Broker count is zero — and once false it stays
false under any further engine calls, `step` included. -/
theorem c6_running_stop (calls : List EngineCall) (r : ℕ → ℚ) (order : List ℕ)
    (s0 s : ModelState) (hinit : InitOK s0)
    (hrun : run (calls ++ [EngineCall.engineStep r order]) s0 = some s) :
    (s.running = true ↔ 0 < active_illicit s) ∧
    (∀ calls2 s2, run calls2 s = some s2 → s.running = false →
      s2.running = false) := by
  rw [run_append_one] at hrun
  cases hu : run calls s0 with
  | none => rw [hu] at hrun; cases hrun
  | some u =>
    rw [hu] at hrun
    have hstep : step r order u = some s := hrun
    have hsd0 : StoppedDone s0 := by
      intro hq
      rw [hinit.2.2.1] at hq
      cases hq
    have hsdu : StoppedDone u := run_stoppedDone hsd0 hu
    have hsds : StoppedDone s := exec_call_stoppedDone hrun hsdu
    refine ⟨⟨?_, ?_⟩, ?_⟩
    · intro htrue
      have hrule := (step_spec hstep).2.2.1
      by_cases hz : active_illicit s = 0
      · rw [if_pos hz, htrue] at hrule; cases hrule
      · exact Nat.pos_of_ne_zero hz
    · intro hpos
      cases hrs : s.running with
      | true => rfl
      | false =>
        have := hsds hrs
        omega
    · intro calls2 s2 h2 hf
      exact run_running_false h2 hf

theorem is_ob_target_congr {s t : ModelState} {j : ℕ}
    (h : t.agents.get? j = s.agents.get? j) :
    is_ob_target t j = is_ob_target s j := by
  unfold is_ob_target get_agent_by_id
  rw [h]

theorem distStep_no_ob {st : ModelState} {i nb : ℕ} {t0 : ℚ}
    (hob : ¬ is_ob_target st nb = true) : distStep i t0 st nb = st := by
  unfold is_ob_target at hob
  cases hgb : get_agent_by_id st nb with
  | none => simp only [distStep, hgb]
  | some b =>
    rw [hgb] at hob
    simp only [distStep, hgb]
    rw [if_neg (fun hp => hob (decide_eq_true hp))]

theorem distStep_ob {st : ModelState} {i nb : ℕ} {t0 : ℚ} {a b : AgentState}
    (hga : st.agents.get? i = some a) (hne : nb ≠ i)
    (hgb : get_agent_by_id st nb = some b)
    (hrole : b.role = Role.Operative ∨ b.role = Role.Broker) :
    distStep i t0 st nb =
      setAgent (setAgent st nb { b with resources := b.resources + t0 }) i
        { a with resources := a.resources - t0 } := by
  have hmid : get_agent_by_id
      (setAgent st nb { b with resources := b.resources + t0 }) i = some a := by
    show (st.agents.set nb _).get? i = some a
    rw [get?_set_other _ _ hne]
    exact hga
  simp only [distStep, hgb]
  rw [if_pos hrole]
  rw [hmid]

theorem distFold_spec (i : ℕ) (t0 : ℚ) (nbrs : List ℕ) :
    ∀ (st : ModelState) (a : AgentState),
      st.agents.get? i = some a → i ∉ nbrs → nbrs.Nodup →
      (∀ j, j ≠ i → j ∉ nbrs →
        (nbrs.foldl (distStep i t0) st).agents.get? j = st.agents.get? j) ∧
      (∀ j b, j ∈ nbrs → st.agents.get? j = some b →
        (nbrs.foldl (distStep i t0) st).agents.get? j =
          some (if is_ob_target st j then
            { b with resources := b.resources + t0 } else b)) ∧
      (∃ a1, (nbrs.foldl (distStep i t0) st).agents.get? i = some a1 ∧
        a1.resources = a.resources -
          (nbrs.countP (fun j => is_ob_target st j) : ℚ) * t0) := by
  induction nbrs with
  | nil =>
    intro st a hga _ _
    refine ⟨fun j _ _ => rfl, fun j b hj => absurd hj (List.not_mem_nil j),
      a, hga, by simp⟩
  | cons nb rest ih =>
    intro st a hga hself hnodup
    have hnbne : nb ≠ i := fun h => hself (h ▸ List.mem_cons_self nb rest)
    have hirest : i ∉ rest := fun h => hself (List.mem_cons_of_mem _ h)
    have hnbrest : nb ∉ rest := (List.nodup_cons.mp hnodup).1
    have hnodup2 : rest.Nodup := (List.nodup_cons.mp hnodup).2
    rw [List.foldl_cons]
    by_cases hob : is_ob_target st nb = true
    · have hgb : ∃ b, get_agent_by_id st nb = some b ∧
          (b.role = Role.Operative ∨ b.role = Role.Broker) := by
        unfold is_ob_target at hob
        cases hgb2 : get_agent_by_id st nb with
        | none => rw [hgb2] at hob; cases hob
        | some b =>
          rw [hgb2] at hob
          exact ⟨b, rfl, of_decide_eq_true hob⟩
      obtain ⟨b, hgb, hrole⟩ := hgb
      rw [distStep_ob hga hnbne hgb hrole]
      have hga2 : ((setAgent (setAgent st nb
          { b with resources := b.resources + t0 }) i
          { a with resources := a.resources - t0 })).agents.get? i =
          some { a with resources := a.resources - t0 } := by
        show ((st.agents.set nb _).set i _).get? i = _
        have h1 : (st.agents.set nb
            { b with resources := b.resources + t0 }).get? i = some a := by
          rw [get?_set_other _ _ hnbne]; exact hga
        exact get?_set_self _ h1
      have hget2 : ∀ j, j ≠ i → j ≠ nb →
          ((setAgent (setAgent st nb { b with resources := b.resources + t0 }) i
            { a with resources := a.resources - t0 })).agents.get? j =
          st.agents.get? j := by
        intro j hji hjnb
        show ((st.agents.set nb _).set i _).get? j = _
        rw [get?_set_other _ _ (Ne.symm hji), get?_set_other _ _ (Ne.symm hjnb)]
      have hgetnb : ((setAgent (setAgent st nb
          { b with resources := b.resources + t0 }) i
          { a with resources := a.resources - t0 })).agents.get? nb =
          some { b with resources := b.resources + t0 } := by
        show ((st.agents.set nb _).set i _).get? nb = _
        rw [get?_set_other _ _ (Ne.symm hnbne)]
        exact get?_set_self _ hgb
      obtain ⟨ih1, ih2, a1, iha1, ihres⟩ := ih _ _ hga2 hirest hnodup2
      refine ⟨?_, ?_, ?_⟩
      · intro j hji hjnotin
        have hjnb : j ≠ nb := fun h => hjnotin (h ▸ List.mem_cons_self nb rest)
        have hjrest : j ∉ rest := fun h => hjnotin (List.mem_cons_of_mem _ h)
        rw [ih1 j hji hjrest]
        exact hget2 j hji hjnb
      · intro j b0 hjmem hjb0
        rcases List.mem_cons.mp hjmem with rfl | hjrest
        · have hb0 : b0 = b := by
            have h1 : st.agents.get? j = some b := hgb
            rw [h1] at hjb0
            injection hjb0 with h; exact h.symm
          subst hb0
          rw [ih1 j hnbne hnbrest, hgetnb, if_pos hob]
        · have hjne : j ≠ i := fun h => hirest (h ▸ hjrest)
          have hjnb : j ≠ nb := fun h => hnbrest (h ▸ hjrest)
          have hst2 : ((setAgent (setAgent st nb
              { b with resources := b.resources + t0 }) i
              { a with resources := a.resources - t0 })).agents.get? j =
              some b0 := by rw [hget2 j hjne hjnb]; exact hjb0
          rw [ih2 j b0 hjrest hst2]
          rw [is_ob_target_congr (hget2 j hjne hjnb)]
      · refine ⟨a1, iha1, ?_⟩
        have hcong : rest.countP (fun j =>
            is_ob_target (setAgent (setAgent st nb
              { b with resources := b.resources + t0 }) i
              { a with resources := a.resources - t0 }) j) =
            rest.countP (fun j => is_ob_target st j) := by
          refine List.countP_congr ?_
          intro j hj
          have hjne : j ≠ i := fun h => hirest (h ▸ hj)
          have hjnb : j ≠ nb := fun h => hnbrest (h ▸ hj)
          rw [is_ob_target_congr (hget2 j hjne hjnb)]
        rw [hcong] at ihres
        rw [ihres, List.countP_cons]
        rw [if_pos hob]
        push_cast
        ring
    · rw [distStep_no_ob hob]
      obtain ⟨ih1, ih2, a1, iha1, ihres⟩ := ih st a hga hirest hnodup2
      refine ⟨?_, ?_, ?_⟩
      · intro j hji hjnotin
        exact ih1 j hji (fun h => hjnotin (List.mem_cons_of_mem _ h))
      · intro j b0 hjmem hjb0
        rcases List.mem_cons.mp hjmem with rfl | hjrest
        · rw [ih1 j hnbne hnbrest, hjb0, if_neg hob]
        · exact ih2 j b0 hjrest hjb0
      · refine ⟨a1, iha1, ?_⟩
        rw [ihres, List.countP_cons, if_neg hob]
        push_cast
        ring

/-- C2 amended: when an active Leader with more than 0.3 resources and at
least one graph neighbor distributes, every Operative/Broker neighbor
receives the SAME share `0.1 * R / (number of ALL neighbors)` of the
pre-distribution resources `R`, other agents are untouched, and the Leader
loses exactly `(number of Operative/Broker neighbors) * share` — which is
10% of `R` only when every neighbor is an Operative or Broker; with
resources at most 0.3 the call leaves the state unchanged. -/
theorem c2_distribute_resources_amended (s : ModelState) (i : ℕ)
    (a : AgentState) (nbrs : List ℕ) (hw : WF s)
    (hg : get_agent_by_id s i = some a) (hn : neighborsOpt s i = some nbrs)
    (hself : i ∉ nbrs) :
    (nbrs.length > 0 ∧ a.resources > 3/10 →
      ∃ t, distribute_resources s i = some t ∧
        (∀ j b, j ∈ nbrs → get_agent_by_id s j = some b →
          (b.role = Role.Operative ∨ b.role = Role.Broker) →
          ∃ b1, get_agent_by_id t j = some b1 ∧
            b1.resources = b.resources +
              (a.resources * (1/10)) / (nbrs.length : ℚ)) ∧
        (∀ j b, j ∈ nbrs → get_agent_by_id s j = some b →
          ¬(b.role = Role.Operative ∨ b.role = Role.Broker) →
          get_agent_by_id t j = some b) ∧
        (∀ j, j ≠ i → j ∉ nbrs →
          get_agent_by_id t j = get_agent_by_id s j) ∧
        (∃ a1, get_agent_by_id t i = some a1 ∧
          a1.resources = a.resources -
            ((nbrs.countP (fun j => is_ob_target s j) : ℚ)) *
              ((a.resources * (1/10)) / (nbrs.length : ℚ)))) ∧
    (¬(nbrs.length > 0 ∧ a.resources > 3/10) →
      distribute_resources s i = some s) := by
  have hnodup : nbrs.Nodup := by
    unfold neighborsOpt at hn
    split at hn
    · injection hn with hn
      rw [← hn]
      exact List.Nodup.filter _ hw.2.1
    · cases hn
  constructor
  · intro hcond
    refine ⟨nbrs.foldl (distStep i
      ((a.resources * (1/10)) / (nbrs.length : ℚ))) s, ?_, ?_⟩
    · unfold distribute_resources
      rw [hn, hg]
      dsimp only
      rw [if_pos hcond]
    · obtain ⟨h1, h2, a1, ha1, hres1⟩ :=
        distFold_spec i ((a.resources * (1/10)) / (nbrs.length : ℚ)) nbrs s a
          hg hself hnodup
      refine ⟨?_, ?_, ?_, a1, ha1, hres1⟩
      · intro j b hj hgb hrole
        refine ⟨{ b with resources := b.resources +
          (a.resources * (1/10)) / (nbrs.length : ℚ) }, ?_, rfl⟩
        have hob : is_ob_target s j = true := by
          unfold is_ob_target
          rw [hgb]
          exact decide_eq_true hrole
        have := h2 j b hj hgb
        rw [if_pos hob] at this
        exact this
      · intro j b hj hgb hrole
        have hob : ¬ is_ob_target s j = true := by
          unfold is_ob_target
          rw [hgb]
          simp [hrole]
        have := h2 j b hj hgb
        rw [if_neg hob] at this
        exact this
      · intro j hji hjn
        exact h1 j hji hjn
  · intro hcond
    unfold distribute_resources
    rw [hn, hg]
    dsimp only
    rw [if_neg hcond]

/-! Claim C1. -/

/-- C1: determinism fails in the code. `AIEMModel.step` draws its shuffle
from the process-global `random` module, which no seed parameter ever
touches (`__init__` seeds only `self.random` and `np.random`), so the
activation order is not a function of the constructor seed. Here, from one
well-formed freshly-constructed state and ONE fixed seeded draw stream, the
two activation orders — both legitimate shuffle outcomes, i.e. permutations
of the id range — record different Metrics tables. -/
theorem c1_shuffle_order_changes_metrics :
    WF exC1 ∧ InitOK exC1 ∧
    ([0, 1] : List ℕ).Perm (List.range 2) ∧
    ([1, 0] : List ℕ).Perm (List.range 2) ∧
    (step rC1 [0, 1] exC1).map (fun t => t.metrics) ≠
      (step rC1 [1, 0] exC1).map (fun t => t.metrics) := by
  refine ⟨?_, ?_, ?_, ?_, ?_⟩ <;> with_unfolding_all decide

/-- C2 counterexample: in `exC2` the Leader (resources 1, two neighbors,
only one of them Operative/Broker) hands out `0.1*1/2 = 1/20` in total —
the shares sum to 5% of its resources, not 10%, and the Leader ends at
19/20, not `1 - 0.1*1 = 9/10`. -/
theorem c2_counterexample :
    WF exC2 ∧
    (distribute_resources exC2 0).bind
      (fun t => (t.agents.get? 0).map (·.resources)) = some (19/20) ∧
    (distribute_resources exC2 0).bind
      (fun t => (t.agents.get? 1).map (·.resources)) = some (1/4) ∧
    (19/20 : ℚ) ≠ 1 - (1/10) * 1 := by
  refine ⟨?_, ?_, ?_, ?_⟩ <;> with_unfolding_all decide

/-! Witnesses. -/
theorem c2_amended_witness :
    (distribute_resources exC2 0).bind
      (fun t => (get_agent_by_id t 1).map (·.resources)) = some (1/4) := by
  obtain ⟨h1, h2⟩ := c2_distribute_resources_amended exC2 0 exLeader [1, 2]
    (by with_unfolding_all decide) rfl (by with_unfolding_all decide)
    (by decide)
  obtain ⟨t, ht, hnb, -, -, -⟩ := h1 (by with_unfolding_all decide)
  obtain ⟨b1, hb1, hres⟩ := hnb 1 exOpA (by decide) rfl (Or.inl rfl)
  rw [ht, Option.some_bind, hb1, Option.map_some', hres]
  with_unfolding_all norm_num [exOpA, exLeader]

theorem c3_witness :
    ((run [EngineCall.engineStep rC1 [0, 1]] exC1).getD exC1).nodes.length +
      (((run [EngineCall.engineStep rC1 [0, 1]] exC1).getD exC1).agents.filter
        (fun a => !a.active)).length =
      ((run [EngineCall.engineStep rC1 [0, 1]] exC1).getD exC1).agents.length :=
  (c3_arrest_active_network_invariant [EngineCall.engineStep rC1 [0, 1]] exC1
    ((run [EngineCall.engineStep rC1 [0, 1]] exC1).getD exC1)
    (by with_unfolding_all decide) (by with_unfolding_all rfl)).2

theorem c4_witness :
    ((step rC1 [0, 1] exC1).getD exC1).arrests_this_step =
      ((step rC1 [0, 1] exC1).getD exC1).intervene_calls :=
  (c4_intervene_agent_spec.2.2 rC1 [0, 1] exC1
    ((step rC1 [0, 1] exC1).getD exC1) (by with_unfolding_all rfl)).2

theorem c5_witness :
    BndAll ((run [EngineCall.engineStep rC1 [0, 1]] exC1).getD exC1) :=
  c5_clamped_attributes [EngineCall.engineStep rC1 [0, 1]] exC1
    ((run [EngineCall.engineStep rC1 [0, 1]] exC1).getD exC1)
    (by with_unfolding_all decide)
    (fun c hc => by rw [List.mem_singleton] at hc; subst hc; trivial)
    (by with_unfolding_all rfl)

theorem c6_witness :
    (((run ([] ++ [EngineCall.engineStep rC1 [0, 1]]) exC1).getD exC1).running =
        true ↔
      0 < active_illicit
        ((run ([] ++ [EngineCall.engineStep rC1 [0, 1]]) exC1).getD exC1)) :=
  (c6_running_stop [] rC1 [0, 1] exC1
    ((run ([] ++ [EngineCall.engineStep rC1 [0, 1]]) exC1).getD exC1)
    (by with_unfolding_all decide) (by with_unfolding_all rfl)).1

theorem c7_amended_witness :
    ((apply_policy_intervention exC7 "economic_support" 1).agents.get? 0).map
      (·.resources) = some (7/10) := by
  have h := (c7_economic_support_amended exC7 1).1 0 exCommunity rfl
  rw [h]
  with_unfolding_all decide

theorem c8_witness :
    ((apply_policy_intervention exC8 "monitoring" 1).agents.get? 0).map
      (·.monitoring_capacity) = some (some (4/5)) := by
  obtain ⟨b, hb, hmc⟩ :=
    (c8_monitoring_spec exC8 1).2.2.1 0 exAuthority rfl rfl rfl rfl
  rw [hb, Option.map_some', hmc]

theorem c9_witness :
    total_resources ((distribute_resources exC2 0).getD exC2) =
      total_resources exC2 :=
  c9_distribute_conserves_total exC2 ((distribute_resources exC2 0).getD exC2)
    0 (by with_unfolding_all rfl)

theorem c10_witness : (step rC1 [0, 1] exC1).isSome = true :=
  c10_step_never_errors rC1 [0, 1] exC1 (by with_unfolding_all decide)
    (by decide)

end AIEM

